import Mathlib

/-!
# Producer/consumer bounded queue (`prod-cons.c`)

A shallow embedding of the ring buffer (`queueInit`, `queueAdd`, `queueDel`),
of the latency computation of the consumer, and of the producer / consumer
thread bodies as a step function over an explicit scheduler choice.

Conventions of the embedding:

* `QUEUESIZE`, `LOOP` and `P` are `#define`d constants of the source
  (10, 100000 and 8); the number of consumers `Q` is the loop variable of
  `main`.  They are parameters here, so that every theorem covers the values
  of the source as well as the small scenarios of the specification.
* `head` and `tail` are C `long`s that only ever hold values in
  `0 .. QUEUESIZE`, `full`/`empty` are C `int` flags, `consumedProducts` is an
  `int` that only ever holds values in `0 .. LOOP * P`; they are `Nat` here.
* a pointer is a `Nat`, a `struct timeval` is a pair of integers.
-/

namespace ProdCons

/-! ## Data model -/

/-- The `struct timeval` of `<sys/time.h>`: seconds and microseconds. -/
structure timeval where
  tv_sec : Int
  tv_usec : Int
  deriving DecidableEq, Repr, Inhabited

/-- The `workFunction` struct: a function pointer, its argument pointer and
the two timestamps (`end` is a reserved word, hence `end_`). -/
structure workFunction where
  work : Nat
  args : Nat
  start : timeval
  end_ : timeval
  deriving DecidableEq, Repr, Inhabited

/-- The data fields of the `queue` struct (the mutex and the two condition
variables are part of the thread model below, `times` of the trial state). -/
structure queue where
  buf : List workFunction
  head : Nat
  tail : Nat
  full : Nat
  empty : Nat
  deriving DecidableEq, Repr

/-! ## `queueInit` -/

/-- Outcome of each of the four `malloc` calls of `queueInit`
(`true`: a valid pointer, `false`: `NULL`); `mut` is a reserved word, hence
`mut_`. -/
structure Mallocs where
  q : Bool
  mut_ : Bool
  notFull : Bool
  notEmpty : Bool
  deriving DecidableEq, Repr

/-- What a call of `queueInit` does: it returns `NULL`, it returns a pointer
to an initialised queue, or it passes a `NULL` pointer to
`pthread_mutex_init` / `pthread_cond_init` (undefined behaviour). -/
inductive InitResult where
  | null
  | ok (q : queue)
  | undefinedBehaviour
  deriving DecidableEq, Repr

/-- The queue as `queueInit` leaves it: the flags and indices are set, the
slots of `buf` keep whatever the allocated memory held (`mem i` for slot `i`). -/
def initQueue (QUEUESIZE : Nat) (mem : Nat → workFunction) : queue :=
  { buf := (List.range QUEUESIZE).map mem, head := 0, tail := 0, full := 0, empty := 1 }

/-- `queueInit`: only the first `malloc` is checked; the other three results
go to `pthread_mutex_init` / `pthread_cond_init` unchecked. -/
def queueInit (QUEUESIZE : Nat) (mem : Nat → workFunction) (m : Mallocs) : InitResult :=
  if m.q = false then InitResult.null
  else if m.mut_ = false then InitResult.undefinedBehaviour
  else if m.notFull = false then InitResult.undefinedBehaviour
  else if m.notEmpty = false then InitResult.undefinedBehaviour
  else InitResult.ok (initQueue QUEUESIZE mem)

/-- The check of `main` after `queueInit`: `exit (1)` exactly on `NULL`. -/
def mainReportsFailure : InitResult → Bool
  | InitResult.null => true
  | _ => false

/-! ## `queueAdd` and `queueDel` -/

/-- `queueAdd`: store at `tail`, advance `tail` with wrap-around, raise `full`
when `tail` meets `head`, clear `empty`. -/
def queueAdd (QUEUESIZE : Nat) (q : queue) (in_ : workFunction) : queue :=
  let buf := q.buf.set q.tail in_
  let tail := q.tail + 1
  let tail := if tail = QUEUESIZE then 0 else tail
  let full := if tail = q.head then 1 else q.full
  { buf := buf, head := q.head, tail := tail, full := full, empty := 0 }

/-- `queueDel`: read the slot at `head` into `out`, advance `head` with
wrap-around, raise `empty` when `head` meets `tail`, clear `full`. -/
def queueDel (QUEUESIZE : Nat) (q : queue) : queue × workFunction :=
  let out := q.buf.getD q.head default
  let head := q.head + 1
  let head := if head = QUEUESIZE then 0 else head
  let empty := if head = q.tail then 1 else q.empty
  ({ buf := q.buf, head := head, tail := q.tail, full := 0, empty := empty }, out)

/-! ## Sequences of calls on one queue -/

/-- One call on the queue. -/
inductive Call where
  | add (w : workFunction)
  | del
  deriving DecidableEq, Repr

/-- The queue together with the history of the calls made on it: the items
passed to `queueAdd` and the items returned by `queueDel`, in call order. -/
structure Hist where
  q : queue
  added : List workFunction
  removed : List workFunction
  deriving DecidableEq, Repr

/-- The history right after `queueInit`. -/
def Hist.init (QUEUESIZE : Nat) (mem : Nat → workFunction) : Hist :=
  { q := initQueue QUEUESIZE mem, added := [], removed := [] }

/-- Effect of one call. -/
def Hist.call (QUEUESIZE : Nat) (h : Hist) : Call → Hist
  | Call.add w => { q := queueAdd QUEUESIZE h.q w, added := h.added ++ [w], removed := h.removed }
  | Call.del =>
    let r := queueDel QUEUESIZE h.q
    { q := r.1, added := h.added, removed := h.removed ++ [r.2] }

/-- Effect of a sequence of calls, guarded or not. -/
def Hist.run (QUEUESIZE : Nat) (h : Hist) : List Call → Hist
  | [] => h
  | c :: cs => Hist.run QUEUESIZE (Hist.call QUEUESIZE h c) cs

/-- The guard under which the thread bodies make a call: `queueAdd` after
`while (fifo->full)`, `queueDel` after `while (fifo->empty)`. -/
def guardOk (q : queue) : Call → Bool
  | Call.add _ => q.full == 0
  | Call.del => q.empty == 0

/-- Every call of the sequence is made with its guard true. -/
def guarded (QUEUESIZE : Nat) (h : Hist) : List Call → Bool
  | [] => true
  | c :: cs => guardOk h.q c && guarded QUEUESIZE (Hist.call QUEUESIZE h c) cs

/-- Number of slots between `head` (inclusive) and `tail` (exclusive), going
around the ring; `head = tail` on a queue that is not empty means all slots. -/
def held (QUEUESIZE : Nat) (q : queue) : Nat :=
  if q.empty ≠ 0 then 0
  else if q.head < q.tail then q.tail - q.head
  else q.tail + QUEUESIZE - q.head

/-- The `n` slots starting at `head`, read circularly. -/
def readFrom (QUEUESIZE : Nat) (q : queue) (n : Nat) : List workFunction :=
  (List.range n).map (fun i => q.buf.getD ((q.head + i) % QUEUESIZE) default)

/-- The buffer contents read circularly from `head` to `tail`. -/
def contents (QUEUESIZE : Nat) (q : queue) : List workFunction :=
  readFrom QUEUESIZE q (held QUEUESIZE q)

/-- Ring-buffer invariant of a history, with `n` the number of items held. -/
structure QInv (QUEUESIZE : Nat) (h : Hist) (n : Nat) : Prop where
  len : h.q.buf.length = QUEUESIZE
  head_lt : h.q.head < QUEUESIZE
  tail_eq : h.q.tail = (h.q.head + n) % QUEUESIZE
  le : n ≤ QUEUESIZE
  full_eq : h.q.full = if n = QUEUESIZE then 1 else 0
  empty_eq : h.q.empty = if n = 0 then 1 else 0
  hist : h.added = h.removed ++ readFrom QUEUESIZE h.q n

/-- Index bounds alone, for arbitrary (also unguarded) call sequences. -/
structure IdxInv (QUEUESIZE : Nat) (q : queue) : Prop where
  len : q.buf.length = QUEUESIZE
  head_lt : q.head < QUEUESIZE
  tail_lt : q.tail < QUEUESIZE

/-- Three distinct work items for the scenarios. -/
def itemA : workFunction := { work := 1, args := 100, start := ⟨0, 1⟩, end_ := ⟨0, 0⟩ }

/-- The second work item. -/
def itemB : workFunction := { work := 1, args := 200, start := ⟨0, 2⟩, end_ := ⟨0, 0⟩ }

/-- The third work item. -/
def itemC : workFunction := { work := 1, args := 300, start := ⟨0, 3⟩, end_ := ⟨0, 0⟩ }

/-- The scenario of the specification on a queue of capacity 2: add A, add B,
del, add C, del, del. -/
def scenarioABC : List Call :=
  [Call.add itemA, Call.add itemB, Call.del, Call.add itemC, Call.del, Call.del]

/-! ## The latency stored by the consumer -/

/-- Subtraction of two `long`s (64 bits); `none` on signed overflow. -/
def subLong (a b : Int) : Option Int :=
  if -(2 : Int) ^ 63 ≤ a - b ∧ a - b < (2 : Int) ^ 63 then some (a - b) else none

/-- The `double` nearest to an integer: every integer of magnitude at most
`2 ^ 53` is a `double`; a larger one is rounded to 53 significant bits, ties to
even. -/
def roundDouble (x : Int) : Int :=
  if -(2 : Int) ^ 53 ≤ x ∧ x ≤ (2 : Int) ^ 53 then x
  else
    let a := x.natAbs
    let ulp := 2 ^ (Nat.log2 a - 52)
    let q := a / ulp
    let r := a % ulp
    let up := if 2 * r < ulp then q else if ulp < 2 * r then q + 1
      else if q % 2 = 0 then q else q + 1
    Int.sign x * ((up * ulp : Nat) : Int)

/-- The cast `(int)` of an integral `double`; `none` when the value does not
fit an `int` (32 bits), which is undefined behaviour. -/
def castInt (x : Int) : Option Int :=
  if -(2 : Int) ^ 31 ≤ x ∧ x < (2 : Int) ^ 31 then some x else none

/-- The value stored in `times[]`:
`(int) ((end.tv_sec - start.tv_sec) * 1e6 + (end.tv_usec - start.tv_usec))`.
The two differences are `long` subtractions; the product with the `double`
constant `1e6` and the sum are `double` operations, each correctly rounded. -/
def latency (start end_ : timeval) : Option Int :=
  match subLong end_.tv_sec start.tv_sec, subLong end_.tv_usec start.tv_usec with
  | some ds, some du =>
    castInt (roundDouble (roundDouble (roundDouble ds * 1000000) + roundDouble du))
  | _, _ => none

/-- Microseconds since the epoch denoted by a `timeval`. -/
def micros (t : timeval) : Int := t.tv_sec * 1000000 + t.tv_usec

/-! ## The producer and consumer threads

Every access to the queue, to `consumedProducts` and to `times` is made with
the mutex `fifo->mut` held, so a step of the model is one critical section:
from `pthread_mutex_lock` (or from the re-acquisition of the mutex inside
`pthread_cond_wait`) to the next `pthread_cond_wait` or `pthread_mutex_unlock`.
Between two steps the mutex is free.  The call of `pthread_cond_signal` that
follows the unlock is a step of its own.  The scheduler and the environment
(clock, allocator, which blocked thread a signal unblocks) are the `Action`
the step function takes. -/

/-- The constants of a trial: the `#define`s `QUEUESIZE`, `LOOP`, `P` and the
number `Q` of consumer threads `main` creates for the trial. -/
structure Config where
  QUEUESIZE : Nat
  LOOP : Nat
  P : Nat
  Q : Nat
  deriving DecidableEq, Repr

/-- Where a thread is between two steps: at the head of its loop (mutex not
held), blocked in `pthread_cond_wait`, unblocked and about to re-acquire the
mutex inside `pthread_cond_wait`, past the unlock and about to call
`pthread_cond_signal`, or returned. -/
inductive Pc where
  | top
  | waiting
  | woken
  | signal
  | finished
  deriving DecidableEq, Repr

/-- Locals of a producer thread: the loop counter `i` and `product`. -/
structure ProducerState where
  pc : Pc
  i : Nat
  product : workFunction
  deriving DecidableEq, Repr

/-- Locals of a consumer thread: `out`. -/
structure ConsumerState where
  pc : Pc
  out : workFunction
  deriving DecidableEq, Repr

/-- State of a trial: the queue with the history of its calls, the global
`consumedProducts`, the array `fifo->times` (`none`: never stored to, or the
stored value is undefined), the threads, and the log of the indices of `times`
stored to, in order. -/
structure State where
  h : Hist
  consumedProducts : Nat
  times : List (Option Int)
  producers : List ProducerState
  consumers : List ConsumerState
  writes : List Nat
  deriving DecidableEq, Repr

/-- What the environment supplies to a step: the pointer `malloc` returns for
`args`, the indeterminate initial contents of the local `product`, the time
`gettimeofday` returns, and the thread a `pthread_cond_signal` unblocks. -/
structure Env where
  args : Nat
  junk : workFunction
  now : timeval
  wake : Nat
  deriving DecidableEq, Repr, Inhabited

/-- A scheduling choice: a step of producer `p`, a step of consumer `c`, or a
spurious wakeup of a thread blocked in `pthread_cond_wait`. -/
inductive Action where
  | producer (p : Nat) (e : Env)
  | consumer (c : Nat) (e : Env)
  | spuriousProducer (p : Nat)
  | spuriousConsumer (c : Nat)
  deriving DecidableEq, Repr

/-- Address of the function `work`. -/
def workPtr : Nat := 1

/-- The trial as `main` sets it up: `consumedProducts = 0`, the queue of
`queueInit`, `times` freshly allocated with `LOOP * P` cells, `P` producers and
`Q` consumers created. -/
def State.init (cfg : Config) (mem : Nat → workFunction) : State :=
  { h := Hist.init cfg.QUEUESIZE mem
    consumedProducts := 0
    times := List.replicate (cfg.LOOP * cfg.P) none
    producers := List.replicate cfg.P { pc := Pc.top, i := 0, product := default }
    consumers := List.replicate cfg.Q { pc := Pc.top, out := default }
    writes := [] }

/-- `pthread_cond_signal (fifo->notEmpty)`: when consumers are blocked on the
condition variable, the one the environment picks is unblocked (the action is
not possible if it picks a thread that is not blocked); otherwise no effect. -/
def signalNotEmpty (cs : List ConsumerState) (wake : Nat) : Option (List ConsumerState) :=
  if cs.any (fun t => t.pc = Pc.waiting) then
    match cs[wake]? with
    | some t => if t.pc = Pc.waiting then some (cs.set wake { t with pc := Pc.woken }) else none
    | none => none
  else some cs

/-- `pthread_cond_signal (fifo->notFull)`, as `signalNotEmpty`. -/
def signalNotFull (ps : List ProducerState) (wake : Nat) : Option (List ProducerState) :=
  if ps.any (fun t => t.pc = Pc.waiting) then
    match ps[wake]? with
    | some t => if t.pc = Pc.waiting then some (ps.set wake { t with pc := Pc.woken }) else none
    | none => none
  else some ps

/-- The producer's critical section, entered with the mutex held: one test of
`while (fifo->full)`, then either `pthread_cond_wait` or `gettimeofday`,
`queueAdd` and the unlock. -/
def producerSection (cfg : Config) (s : State) (p : Nat) (t : ProducerState)
    (now : timeval) : State :=
  if s.h.q.full ≠ 0 then
    { s with producers := s.producers.set p { t with pc := Pc.waiting } }
  else
    let product := { t.product with start := now }
    { s with
      h := Hist.call cfg.QUEUESIZE s.h (Call.add product)
      producers := s.producers.set p { t with pc := Pc.signal, product := product } }

/-- One step of producer `p`. -/
def producerStep (cfg : Config) (s : State) (p : Nat) (e : Env) : Option State :=
  match s.producers[p]? with
  | none => none
  | some t =>
    match t.pc with
    | Pc.top =>
      if t.i < cfg.LOOP then
        some (producerSection cfg s p
          { t with product := { e.junk with work := workPtr, args := e.args } } e.now)
      else some { s with producers := s.producers.set p { t with pc := Pc.finished } }
    | Pc.woken => some (producerSection cfg s p t e.now)
    | Pc.signal =>
      match signalNotEmpty s.consumers e.wake with
      | some cs =>
        some { s with
          consumers := cs
          producers := s.producers.set p { t with pc := Pc.top, i := t.i + 1 } }
      | none => none
    | Pc.waiting => none
    | Pc.finished => none

/-- The consumer's critical section after the claim, entered with the mutex
held: one test of `while (fifo->empty)`, then either `pthread_cond_wait` or
`queueDel`, `gettimeofday`, the store to `times[consumedProducts-1]` (with the
value `consumedProducts` has at that moment) and the unlock. -/
def consumerSection (cfg : Config) (s : State) (c : Nat) (t : ConsumerState)
    (now : timeval) : State :=
  if s.h.q.empty ≠ 0 then
    { s with consumers := s.consumers.set c { t with pc := Pc.waiting } }
  else
    let out := { (queueDel cfg.QUEUESIZE s.h.q).2 with end_ := now }
    { s with
      h := Hist.call cfg.QUEUESIZE s.h Call.del
      times := s.times.set (s.consumedProducts - 1) (latency out.start out.end_)
      writes := s.writes ++ [s.consumedProducts - 1]
      consumers := s.consumers.set c { pc := Pc.signal, out := out } }

/-- One step of consumer `c`. -/
def consumerStep (cfg : Config) (s : State) (c : Nat) (e : Env) : Option State :=
  match s.consumers[c]? with
  | none => none
  | some t =>
    match t.pc with
    | Pc.top =>
      if s.consumedProducts = cfg.LOOP * cfg.P then
        some { s with consumers := s.consumers.set c { t with pc := Pc.finished } }
      else
        some (consumerSection cfg { s with consumedProducts := s.consumedProducts + 1 } c t e.now)
    | Pc.woken => some (consumerSection cfg s c t e.now)
    | Pc.signal =>
      match signalNotFull s.producers e.wake with
      | some ps =>
        some { s with
          producers := ps
          consumers := s.consumers.set c { t with pc := Pc.top } }
      | none => none
    | Pc.waiting => none
    | Pc.finished => none

/-- One step of the trial. -/
def step (cfg : Config) (s : State) : Action → Option State
  | Action.producer p e => producerStep cfg s p e
  | Action.consumer c e => consumerStep cfg s c e
  | Action.spuriousProducer p =>
    match s.producers[p]? with
    | some t =>
      if t.pc = Pc.waiting then
        some { s with producers := s.producers.set p { t with pc := Pc.woken } }
      else none
    | none => none
  | Action.spuriousConsumer c =>
    match s.consumers[c]? with
    | some t =>
      if t.pc = Pc.waiting then
        some { s with consumers := s.consumers.set c { t with pc := Pc.woken } }
      else none
    | none => none

/-- A schedule run from a state; `none` when one of its actions is not
possible in the state it meets. -/
def run (cfg : Config) (s : State) : List Action → Option State
  | [] => some s
  | a :: as =>
    match step cfg s a with
    | some s' => run cfg s' as
    | none => none

/-- The action is a spurious wakeup. -/
def Action.isSpurious : Action → Bool
  | Action.spuriousProducer _ => true
  | Action.spuriousConsumer _ => true
  | _ => false

/-- Every thread has returned. -/
def State.allFinished (s : State) : Bool :=
  s.producers.all (fun t => t.pc = Pc.finished) && s.consumers.all (fun t => t.pc = Pc.finished)

/-! ## Counting threads -/

/-- Sum of a weight over a list of threads. -/
def sumBy {α : Type} (f : α → Nat) (l : List α) : Nat := (l.map f).sum

/-- Indicator of a location. -/
def pcIs (pc x : Pc) : Nat := if x = pc then 1 else 0

/-- Indicator that a producer is at the location. -/
def pAt (pc : Pc) (t : ProducerState) : Nat := pcIs pc t.pc

/-- Indicator that a consumer is at the location. -/
def cAt (pc : Pc) (t : ConsumerState) : Nat := pcIs pc t.pc

/-- Number of `queueAdd` calls a producer has still to make. -/
def left (LOOP : Nat) (t : ProducerState) : Nat :=
  match t.pc with
  | Pc.top => LOOP - t.i
  | Pc.waiting => LOOP - t.i - 1 + 1
  | Pc.woken => LOOP - t.i - 1 + 1
  | Pc.signal => LOOP - t.i - 1
  | Pc.finished => 0

/-- Upper bound on the number of steps a producer can still take or cause. -/
def producerPotential (LOOP : Nat) (t : ProducerState) : Nat :=
  match t.pc with
  | Pc.top => 4 * (LOOP - t.i) + 1
  | Pc.waiting => 4 * (LOOP - t.i - 1) + 3
  | Pc.woken => 4 * (LOOP - t.i - 1) + 4
  | Pc.signal => 4 * (LOOP - t.i - 1) + 3
  | Pc.finished => 0

/-- Upper bound on the number of steps a consumer can still take or cause
before its next claim. -/
def consumerPotential (t : ConsumerState) : Nat :=
  match t.pc with
  | Pc.top => 1
  | Pc.waiting => 3
  | Pc.woken => 4
  | Pc.signal => 3
  | Pc.finished => 0

/-- Upper bound on the number of steps, other than spurious wakeups, a trial
can still take. -/
def potential (cfg : Config) (s : State) : Nat :=
  sumBy (producerPotential cfg.LOOP) s.producers +
    4 * (cfg.LOOP * cfg.P - s.consumedProducts) + sumBy consumerPotential s.consumers

/-- Number of spurious wakeups in a schedule. -/
def spuriousCount (as : List Action) : Nat := (as.filter Action.isSpurious).length

/-- Invariant of the trial, with `n` the number of items in the queue. -/
structure Inv (cfg : Config) (s : State) (n : Nat) : Prop where
  q : QInv cfg.QUEUESIZE s.h n
  plen : s.producers.length = cfg.P
  clen : s.consumers.length = cfg.Q
  claims : s.consumedProducts =
    s.h.removed.length + sumBy (cAt Pc.waiting) s.consumers + sumBy (cAt Pc.woken) s.consumers
  gate : s.consumedProducts ≤ cfg.LOOP * cfg.P
  prod : s.h.added.length + sumBy (left cfg.LOOP) s.producers = cfg.LOOP * cfg.P
  fin : 0 < sumBy (cAt Pc.finished) s.consumers → s.consumedProducts = cfg.LOOP * cfg.P
  notEmpty : 0 < sumBy (cAt Pc.waiting) s.consumers →
    n ≤ sumBy (pAt Pc.signal) s.producers + sumBy (cAt Pc.woken) s.consumers
  notFull : 0 < sumBy (pAt Pc.waiting) s.producers →
    cfg.QUEUESIZE ≤ n + sumBy (cAt Pc.signal) s.consumers + sumBy (pAt Pc.woken) s.producers

/-- The action is a claim: a step of a consumer that is at the head of its loop
while `consumedProducts` differs from `LOOP * P`. -/
def isClaim (cfg : Config) (s : State) : Action → Bool
  | Action.consumer c _ =>
    match s.consumers[c]? with
    | some t => t.pc = Pc.top && s.consumedProducts ≠ cfg.LOOP * cfg.P
    | none => false
  | _ => false

/-! ## Concrete scenarios -/

/-- The constants of the source, with two consumers (the second trial of `main`). -/
def sourceConfig : Config := { QUEUESIZE := 10, LOOP := 100000, P := 8, Q := 2 }

/-- The scenario of the specification: 2 producers of 3 items each, 3 consumers. -/
def smallConfig : Config := { QUEUESIZE := 10, LOOP := 3, P := 2, Q := 3 }

/-- Environment of the `k`-th step of a scenario: the clock reads `k`
microseconds, `malloc` returns `1000 + k`, a signal unblocks thread `wake`. -/
def envAt (k wake : Nat) : Env :=
  { args := 1000 + k, junk := default, now := { tv_sec := 0, tv_usec := k }, wake := wake }

/-- A complete schedule of the small scenario.  Consumers 0 and 1 both claim
(and block on the empty queue) before the first item is added. -/
def raceSchedule : List Action :=
  [ Action.consumer 0 (envAt 1 0), Action.consumer 1 (envAt 2 0),
    Action.producer 0 (envAt 3 0), Action.producer 0 (envAt 4 0),
    Action.consumer 0 (envAt 5 0), Action.consumer 0 (envAt 6 0),
    Action.producer 0 (envAt 7 0), Action.producer 0 (envAt 8 1),
    Action.consumer 1 (envAt 9 0),
    Action.consumer 0 (envAt 10 0), Action.producer 0 (envAt 11 0),
    Action.producer 0 (envAt 12 0), Action.consumer 0 (envAt 13 0),
    Action.consumer 0 (envAt 14 0), Action.consumer 0 (envAt 15 0),
    Action.producer 0 (envAt 16 0), Action.consumer 1 (envAt 17 0),
    Action.consumer 1 (envAt 18 0), Action.producer 1 (envAt 19 0),
    Action.producer 1 (envAt 20 0), Action.consumer 0 (envAt 21 0),
    Action.consumer 0 (envAt 22 0), Action.consumer 0 (envAt 23 0),
    Action.producer 1 (envAt 24 0), Action.producer 1 (envAt 25 0),
    Action.consumer 0 (envAt 26 0), Action.consumer 0 (envAt 27 0),
    Action.consumer 0 (envAt 28 0), Action.producer 1 (envAt 29 0),
    Action.consumer 2 (envAt 30 0), Action.producer 1 (envAt 31 1),
    Action.consumer 1 (envAt 32 0), Action.consumer 1 (envAt 33 0),
    Action.consumer 1 (envAt 34 0), Action.producer 1 (envAt 35 0) ]

/-- The state a schedule leads to from the initial state (the initial state
itself when the schedule is not possible). -/
def reach (cfg : Config) (as : List Action) : State :=
  (run cfg (State.init cfg (fun _ => default)) as).getD (State.init cfg (fun _ => default))

/-- What a step other than a spurious wakeup guarantees: the invariant again,
with `n'` items in the queue, and a smaller potential. -/
structure StepOk (cfg : Config) (s s' : State) (n' : Nat) : Prop where
  inv : Inv cfg s' n'
  pot : potential cfg s' < potential cfg s

/-- Number of claims made along a schedule run from a state. -/
def claimCount (cfg : Config) : State → List Action → Nat
  | _, [] => 0
  | s, a :: as =>
    match step cfg s a with
    | some s' => (if isClaim cfg s a then 1 else 0) + claimCount cfg s' as
    | none => 0

/-- A sequence of calls that respects no guard: two `queueDel` on the empty
queue, then twelve `queueAdd` on a queue of ten slots. -/
def unguardedCalls : List Call :=
  [Call.del, Call.del] ++ List.replicate 12 (Call.add itemA)

/-! ## The ring buffer: invariant and sequential properties -/

theorem add_mod_cases (N a b : Nat) (ha : a < N) (hb : b ≤ N) :
    (a + b) % N = if a + b < N then a + b else a + b - N := by
  split
  · next h => exact Nat.mod_eq_of_lt h
  · next h =>
    have h1 : a + b = (a + b - N) + N := by omega
    have h2 : a + b - N < N := by omega
    conv_lhs => rw [h1]
    rw [Nat.add_mod_right, Nat.mod_eq_of_lt h2]

theorem qinv_tail_lt {N : Nat} {h : Hist} {n : Nat} (hi : QInv N h n) : h.q.tail < N := by
  rw [hi.tail_eq]
  exact Nat.mod_lt _ (Nat.lt_of_le_of_lt (Nat.zero_le _) hi.head_lt)

theorem qinv_held_eq {N : Nat} {h : Hist} {n : Nat} (hi : QInv N h n) : held N h.q = n := by
  have ht := hi.tail_eq
  rw [add_mod_cases N _ _ hi.head_lt hi.le] at ht
  have he := hi.empty_eq
  have hl := hi.le
  have hh := hi.head_lt
  unfold held
  by_cases h0 : n = 0
  · simp [h0] at he
    simp [he, h0]
  · simp [h0] at he
    simp only [he, ne_eq, not_true_eq_false, if_false]
    split at ht <;> split <;> omega

theorem qinv_init (N : Nat) (mem : Nat → workFunction) (hN : 0 < N) :
    QInv N (Hist.init N mem) 0 := by
  have hN0 : ¬ (0 = N) := by omega
  constructor <;> simp [Hist.init, initQueue, readFrom, hN0]
  exact hN

theorem getD_set_self (l : List workFunction) (i : Nat) (w : workFunction) (hi : i < l.length) :
    (l.set i w).getD i default = w := by
  simp [List.getD_eq_getElem?_getD, List.getElem?_set, hi]

theorem getD_set_other (l : List workFunction) (i j : Nat) (w : workFunction) (hij : i ≠ j) :
    (l.set i w).getD j default = l.getD j default := by
  simp [List.getD_eq_getElem?_getD, List.getElem?_set, hij]

theorem qinv_add {N : Nat} {h : Hist} {n : Nat} (hi : QInv N h n) (hf : h.q.full = 0)
    (w : workFunction) : QInv N (Hist.call N h (Call.add w)) (n + 1) := by
  have hl := hi.le
  have hh := hi.head_lt
  have hfe := hi.full_eq
  have hnN : n < N := by
    by_contra hc
    have : n = N := by omega
    simp [this] at hfe
    omega
  have ht := hi.tail_eq
  have ht1 := add_mod_cases N h.q.head n hh hl
  have ht2 := add_mod_cases N h.q.head (n + 1) hh (by omega)
  have htl := qinv_tail_lt hi
  constructor
  · simp [Hist.call, queueAdd, hi.len]
  · simpa [Hist.call, queueAdd] using hh
  · simp only [Hist.call, queueAdd]
    rw [ht2, ht, ht1]
    split_ifs <;> omega
  · omega
  · simp only [Hist.call, queueAdd]
    rw [hf, ht, ht1]
    split_ifs <;> omega
  · simp [Hist.call, queueAdd]
  · simp only [Hist.call, queueAdd, readFrom]
    rw [List.range_succ, List.map_append, ← List.append_assoc]
    congr 1
    · rw [hi.hist]
      congr 1
      apply List.map_congr_left
      intro i him
      have hin : i < n := List.mem_range.mp him
      rw [getD_set_other]
      rw [ht, ht1]
      have := add_mod_cases N h.q.head i hh (by omega)
      rw [this]
      split_ifs <;> omega
    · simp only [List.map_cons, List.map_nil]
      rw [← ht, getD_set_self _ _ _ (by rw [hi.len]; exact htl)]

theorem qinv_del {N : Nat} {h : Hist} {n : Nat} (hi : QInv N h n) (he : h.q.empty = 0) :
    QInv N (Hist.call N h Call.del) (n - 1) := by
  have hl := hi.le
  have hh := hi.head_lt
  have hee := hi.empty_eq
  have hn0 : 0 < n := by
    by_contra hc
    have : n = 0 := by omega
    simp [this] at hee
    omega
  have ht := hi.tail_eq
  have ht1 := add_mod_cases N h.q.head n hh hl
  constructor
  · simp [Hist.call, queueDel, hi.len]
  · simp only [Hist.call, queueDel]
    split_ifs <;> omega
  · simp only [Hist.call, queueDel]
    have := add_mod_cases N (if h.q.head + 1 = N then 0 else h.q.head + 1) (n - 1)
      (by split_ifs <;> omega) (by omega)
    rw [this, ht, ht1]
    split_ifs <;> omega
  · omega
  · simp only [Hist.call, queueDel]
    split_ifs <;> omega
  · simp only [Hist.call, queueDel]
    rw [he, ht, ht1]
    split_ifs <;> omega
  · simp only [Hist.call, queueDel, readFrom]
    rw [hi.hist, List.append_assoc]
    congr 1
    obtain ⟨m, rfl⟩ : ∃ m, n = m + 1 := ⟨n - 1, by omega⟩
    simp only [readFrom, Nat.add_sub_cancel]
    rw [List.range_succ_eq_map, List.map_cons, List.map_map]
    simp only [Nat.add_zero, List.singleton_append]
    rw [Nat.mod_eq_of_lt hh]
    congr 1
    apply List.map_congr_left
    intro i him
    have hin : i < m := List.mem_range.mp him
    simp only [Function.comp, Nat.succ_eq_add_one]
    congr 1
    have h1 := add_mod_cases N h.q.head (i + 1) hh (by omega)
    have h2 := add_mod_cases N (if h.q.head + 1 = N then 0 else h.q.head + 1) i
      (by split_ifs <;> omega) (by omega)
    rw [h1, h2]
    split_ifs <;> omega

theorem qinv_call {N : Nat} {h : Hist} {n : Nat} (hi : QInv N h n) (c : Call)
    (hg : guardOk h.q c = true) : ∃ m, QInv N (Hist.call N h c) m := by
  cases c with
  | add w => exact ⟨n + 1, qinv_add hi (by simpa [guardOk] using hg) w⟩
  | del => exact ⟨n - 1, qinv_del hi (by simpa [guardOk] using hg)⟩

theorem qinv_run {N : Nat} : ∀ (cs : List Call) (h : Hist) (n : Nat), QInv N h n →
    guarded N h cs = true → ∃ m, QInv N (Hist.run N h cs) m
  | [], h, n, hi, _ => ⟨n, hi⟩
  | c :: cs, h, n, hi, hg => by
    simp only [guarded, Bool.and_eq_true] at hg
    obtain ⟨m, hm⟩ := qinv_call hi c hg.1
    exact qinv_run cs _ m hm hg.2

theorem guarded_take {N : Nat} : ∀ (cs : List Call) (h : Hist) (k : Nat),
    guarded N h cs = true → guarded N h (cs.take k) = true
  | [], _, k, _ => by simp [guarded]
  | _ :: _, _, 0, _ => by simp [guarded]
  | c :: cs, h, k + 1, hg => by
    simp only [guarded, Bool.and_eq_true, List.take_succ_cons] at hg ⊢
    exact ⟨hg.1, guarded_take cs _ k hg.2⟩

theorem qinv_length_eq {N : Nat} {h : Hist} {n : Nat} (hi : QInv N h n) :
    h.added.length = h.removed.length + n := by
  rw [hi.hist]
  simp [readFrom]

theorem idx_call {N : Nat} {h : Hist} (hi : IdxInv N h.q) (c : Call) :
    IdxInv N (Hist.call N h c).q := by
  have h1 := hi.head_lt
  have h2 := hi.tail_lt
  cases c with
  | add w =>
    constructor
    · simp [Hist.call, queueAdd, hi.len]
    · simpa [Hist.call, queueAdd] using h1
    · simp only [Hist.call, queueAdd]
      split_ifs <;> omega
  | del =>
    constructor
    · simp [Hist.call, queueDel, hi.len]
    · simp only [Hist.call, queueDel]
      split_ifs <;> omega
    · simpa [Hist.call, queueDel] using h2

theorem idx_run {N : Nat} : ∀ (cs : List Call) (h : Hist), IdxInv N h.q →
    IdxInv N (Hist.run N h cs).q
  | [], _, hi => hi
  | c :: cs, _, hi => idx_run cs _ (idx_call hi c)

theorem succ_wrap (N i : Nat) (hi : i < N) :
    (if i + 1 = N then 0 else i + 1) = (i + 1) % N := by
  rw [add_mod_cases N i 1 hi (by omega)]
  split_ifs <;> omega

/-- C1. FIFO order: after every prefix of a sequence of `queueAdd` / `queueDel`
calls made on the queue of `queueInit` with their guards true (`queueAdd` only
when `full == 0`, `queueDel` only when `empty == 0`), the list of items added
is the list of items removed followed by the buffer contents read circularly
from `head` to `tail`, and the `k`-th item returned by `queueDel` is the `k`-th
item passed to `queueAdd`. -/
theorem fifo_order (QUEUESIZE : Nat) (mem : Nat → workFunction) (cs : List Call)
    (hN : 0 < QUEUESIZE) (hg : guarded QUEUESIZE (Hist.init QUEUESIZE mem) cs = true) :
    ∀ j, j ≤ cs.length →
      (Hist.run QUEUESIZE (Hist.init QUEUESIZE mem) (cs.take j)).added =
        (Hist.run QUEUESIZE (Hist.init QUEUESIZE mem) (cs.take j)).removed ++
          contents QUEUESIZE (Hist.run QUEUESIZE (Hist.init QUEUESIZE mem) (cs.take j)).q ∧
      ∀ k, k < (Hist.run QUEUESIZE (Hist.init QUEUESIZE mem) (cs.take j)).removed.length →
        (Hist.run QUEUESIZE (Hist.init QUEUESIZE mem) (cs.take j)).removed[k]? =
          (Hist.run QUEUESIZE (Hist.init QUEUESIZE mem) (cs.take j)).added[k]? := by
  intro j _
  obtain ⟨m, hm⟩ := qinv_run (cs.take j) _ 0 (qinv_init QUEUESIZE mem hN) (guarded_take cs _ j hg)
  have hc : contents QUEUESIZE (Hist.run QUEUESIZE (Hist.init QUEUESIZE mem) (cs.take j)).q =
      readFrom QUEUESIZE (Hist.run QUEUESIZE (Hist.init QUEUESIZE mem) (cs.take j)).q m := by
    rw [contents, qinv_held_eq hm]
  refine ⟨by rw [hc]; exact hm.hist, ?_⟩
  intro k hk
  rw [hm.hist, List.getElem?_append_left hk]

/-- C1, witness: capacity 2, adds A, B, del, add C, del, del return A, B, C; after
the fourth call A has been returned and the buffer holds B, C. -/
theorem fifo_order_witness :
    (Hist.run 2 (Hist.init 2 (fun _ => default)) scenarioABC).removed = [itemA, itemB, itemC] ∧
    (Hist.run 2 (Hist.init 2 (fun _ => default)) (scenarioABC.take 4)).removed = [itemA] ∧
    contents 2 (Hist.run 2 (Hist.init 2 (fun _ => default)) (scenarioABC.take 4)).q
      = [itemB, itemC] ∧
    ∀ j, j ≤ scenarioABC.length →
      (Hist.run 2 (Hist.init 2 (fun _ => default)) (scenarioABC.take j)).added =
        (Hist.run 2 (Hist.init 2 (fun _ => default)) (scenarioABC.take j)).removed ++
          contents 2 (Hist.run 2 (Hist.init 2 (fun _ => default)) (scenarioABC.take j)).q ∧
      ∀ k, k < (Hist.run 2 (Hist.init 2 (fun _ => default)) (scenarioABC.take j)).removed.length →
        (Hist.run 2 (Hist.init 2 (fun _ => default)) (scenarioABC.take j)).removed[k]? =
          (Hist.run 2 (Hist.init 2 (fun _ => default)) (scenarioABC.take j)).added[k]? :=
  ⟨by decide, by decide, by decide,
    fifo_order 2 (fun _ => default) scenarioABC (by decide) (by decide)⟩

/-- C2. Capacity invariant: after a sequence of guarded calls on the queue of
`queueInit`, the number of items held (adds minus dels) is between 0 and
`QUEUESIZE`, `empty == 1` exactly when it is 0, `full == 1` exactly when it is
`QUEUESIZE`, and with `QUEUESIZE` items held the guard of `queueAdd`
(`full == 0`, the exit condition of `while (fifo->full)`) is false. -/
theorem capacity_invariant (QUEUESIZE : Nat) (mem : Nat → workFunction) (cs : List Call)
    (hN : 0 < QUEUESIZE) (hg : guarded QUEUESIZE (Hist.init QUEUESIZE mem) cs = true) :
    (Hist.run QUEUESIZE (Hist.init QUEUESIZE mem) cs).removed.length ≤
      (Hist.run QUEUESIZE (Hist.init QUEUESIZE mem) cs).added.length ∧
    (Hist.run QUEUESIZE (Hist.init QUEUESIZE mem) cs).added.length -
      (Hist.run QUEUESIZE (Hist.init QUEUESIZE mem) cs).removed.length ≤ QUEUESIZE ∧
    ((Hist.run QUEUESIZE (Hist.init QUEUESIZE mem) cs).q.empty = 1 ↔
      (Hist.run QUEUESIZE (Hist.init QUEUESIZE mem) cs).added.length -
        (Hist.run QUEUESIZE (Hist.init QUEUESIZE mem) cs).removed.length = 0) ∧
    ((Hist.run QUEUESIZE (Hist.init QUEUESIZE mem) cs).q.full = 1 ↔
      (Hist.run QUEUESIZE (Hist.init QUEUESIZE mem) cs).added.length -
        (Hist.run QUEUESIZE (Hist.init QUEUESIZE mem) cs).removed.length = QUEUESIZE) ∧
    ((Hist.run QUEUESIZE (Hist.init QUEUESIZE mem) cs).added.length -
        (Hist.run QUEUESIZE (Hist.init QUEUESIZE mem) cs).removed.length = QUEUESIZE →
      ∀ w, guardOk (Hist.run QUEUESIZE (Hist.init QUEUESIZE mem) cs).q (Call.add w) = false) := by
  obtain ⟨m, hm⟩ := qinv_run cs _ 0 (qinv_init QUEUESIZE mem hN) hg
  have hlen := qinv_length_eq hm
  have hle := hm.le
  have hf := hm.full_eq
  have he := hm.empty_eq
  have hk : (Hist.run QUEUESIZE (Hist.init QUEUESIZE mem) cs).added.length -
      (Hist.run QUEUESIZE (Hist.init QUEUESIZE mem) cs).removed.length = m := by omega
  rw [hk, he, hf]
  refine ⟨by omega, hle, ?_, ?_, ?_⟩
  · by_cases h0 : m = 0 <;> simp [h0]
  · by_cases h0 : m = QUEUESIZE <;> simp [h0]
  · intro hmN w
    simp [guardOk, hf, hmN]

/-- C2, witness: ten guarded adds on a queue of ten slots fill it. -/
theorem capacity_invariant_witness :
    (Hist.run 10 (Hist.init 10 (fun _ => default)) (List.replicate 10 (Call.add itemA))).q.full
      = 1 ∧
    ((Hist.run 10 (Hist.init 10 (fun _ => default))
        (List.replicate 10 (Call.add itemA))).removed.length ≤
      (Hist.run 10 (Hist.init 10 (fun _ => default))
        (List.replicate 10 (Call.add itemA))).added.length ∧
    (Hist.run 10 (Hist.init 10 (fun _ => default))
        (List.replicate 10 (Call.add itemA))).added.length -
      (Hist.run 10 (Hist.init 10 (fun _ => default))
        (List.replicate 10 (Call.add itemA))).removed.length ≤ 10 ∧
    ((Hist.run 10 (Hist.init 10 (fun _ => default))
        (List.replicate 10 (Call.add itemA))).q.empty = 1 ↔
      (Hist.run 10 (Hist.init 10 (fun _ => default))
          (List.replicate 10 (Call.add itemA))).added.length -
        (Hist.run 10 (Hist.init 10 (fun _ => default))
          (List.replicate 10 (Call.add itemA))).removed.length = 0) ∧
    ((Hist.run 10 (Hist.init 10 (fun _ => default))
        (List.replicate 10 (Call.add itemA))).q.full = 1 ↔
      (Hist.run 10 (Hist.init 10 (fun _ => default))
          (List.replicate 10 (Call.add itemA))).added.length -
        (Hist.run 10 (Hist.init 10 (fun _ => default))
          (List.replicate 10 (Call.add itemA))).removed.length = 10) ∧
    ((Hist.run 10 (Hist.init 10 (fun _ => default))
          (List.replicate 10 (Call.add itemA))).added.length -
        (Hist.run 10 (Hist.init 10 (fun _ => default))
          (List.replicate 10 (Call.add itemA))).removed.length = 10 →
      ∀ w, guardOk (Hist.run 10 (Hist.init 10 (fun _ => default))
        (List.replicate 10 (Call.add itemA))).q (Call.add w) = false)) :=
  ⟨by decide, capacity_invariant 10 (fun _ => default) (List.replicate 10 (Call.add itemA))
    (by decide) (by decide)⟩

/-- C10. Buffer indices stay in range: after any sequence of `queueAdd` and
`queueDel` calls on the queue of `queueInit`, guarded or not, `head` and `tail`
are below `QUEUESIZE` (the length of `buf`), `queueAdd` moves `tail` to
`(tail+1) mod QUEUESIZE` and leaves `head`, `queueDel` moves `head` to
`(head+1) mod QUEUESIZE` and leaves `tail`. -/
theorem indices_in_range (QUEUESIZE : Nat) (mem : Nat → workFunction) (cs : List Call)
    (hN : 0 < QUEUESIZE) :
    (Hist.run QUEUESIZE (Hist.init QUEUESIZE mem) cs).q.head < QUEUESIZE ∧
    (Hist.run QUEUESIZE (Hist.init QUEUESIZE mem) cs).q.tail < QUEUESIZE ∧
    (Hist.run QUEUESIZE (Hist.init QUEUESIZE mem) cs).q.buf.length = QUEUESIZE ∧
    (∀ w, (queueAdd QUEUESIZE (Hist.run QUEUESIZE (Hist.init QUEUESIZE mem) cs).q w).tail =
          ((Hist.run QUEUESIZE (Hist.init QUEUESIZE mem) cs).q.tail + 1) % QUEUESIZE ∧
        (queueAdd QUEUESIZE (Hist.run QUEUESIZE (Hist.init QUEUESIZE mem) cs).q w).head =
          (Hist.run QUEUESIZE (Hist.init QUEUESIZE mem) cs).q.head) ∧
    (queueDel QUEUESIZE (Hist.run QUEUESIZE (Hist.init QUEUESIZE mem) cs).q).1.head =
        ((Hist.run QUEUESIZE (Hist.init QUEUESIZE mem) cs).q.head + 1) % QUEUESIZE ∧
    (queueDel QUEUESIZE (Hist.run QUEUESIZE (Hist.init QUEUESIZE mem) cs).q).1.tail =
        (Hist.run QUEUESIZE (Hist.init QUEUESIZE mem) cs).q.tail := by
  have h0 : IdxInv QUEUESIZE (Hist.init QUEUESIZE mem).q := by
    constructor <;> simp [Hist.init, initQueue, hN]
  have hi := idx_run cs _ h0
  refine ⟨hi.head_lt, hi.tail_lt, hi.len, ?_, ?_, ?_⟩
  · intro w
    exact ⟨by simp only [queueAdd]; exact succ_wrap _ _ hi.tail_lt, by simp [queueAdd]⟩
  · simp only [queueDel]; exact succ_wrap _ _ hi.head_lt
  · simp [queueDel]

/-- C10, witness: a sequence of calls that violates both guards. -/
theorem indices_in_range_witness :
    guarded 10 (Hist.init 10 (fun _ => default)) unguardedCalls = false ∧
    ((Hist.run 10 (Hist.init 10 (fun _ => default)) unguardedCalls).q.head < 10 ∧
    (Hist.run 10 (Hist.init 10 (fun _ => default)) unguardedCalls).q.tail < 10 ∧
    (Hist.run 10 (Hist.init 10 (fun _ => default)) unguardedCalls).q.buf.length = 10 ∧
    (∀ w, (queueAdd 10 (Hist.run 10 (Hist.init 10 (fun _ => default)) unguardedCalls).q w).tail =
          ((Hist.run 10 (Hist.init 10 (fun _ => default)) unguardedCalls).q.tail + 1) % 10 ∧
        (queueAdd 10 (Hist.run 10 (Hist.init 10 (fun _ => default)) unguardedCalls).q w).head =
          (Hist.run 10 (Hist.init 10 (fun _ => default)) unguardedCalls).q.head) ∧
    (queueDel 10 (Hist.run 10 (Hist.init 10 (fun _ => default)) unguardedCalls).q).1.head =
        ((Hist.run 10 (Hist.init 10 (fun _ => default)) unguardedCalls).q.head + 1) % 10 ∧
    (queueDel 10 (Hist.run 10 (Hist.init 10 (fun _ => default)) unguardedCalls).q).1.tail =
        (Hist.run 10 (Hist.init 10 (fun _ => default)) unguardedCalls).q.tail) :=
  ⟨by decide, indices_in_range 10 (fun _ => default) unguardedCalls (by decide)⟩

theorem roundDouble_small (x : Int) (h1 : -(2 : Int) ^ 53 ≤ x) (h2 : x ≤ (2 : Int) ^ 53) :
    roundDouble x = x := by
  unfold roundDouble
  rw [if_pos ⟨h1, h2⟩]

/-- C8. Latency is the exact non-negative microsecond difference: for `start`
and `end` with `0 <= tv_usec < 1000000`, `end` not earlier than `start` and a
difference below `2^31` microseconds, the value stored in `times[]` is defined,
equals the elapsed microseconds and is `>= 0` (also when
`end.tv_usec < start.tv_usec`). -/
theorem latency_exact (start end_ : timeval)
    (hs0 : 0 ≤ start.tv_usec) (hs1 : start.tv_usec < 1000000)
    (he0 : 0 ≤ end_.tv_usec) (he1 : end_.tv_usec < 1000000)
    (hle : micros start ≤ micros end_)
    (hlt : micros end_ - micros start < 2 ^ 31) :
    latency start end_ = some (micros end_ - micros start) ∧
    ∃ v, latency start end_ = some v ∧ 0 ≤ v := by
  have key : latency start end_ = some (micros end_ - micros start) := by
    unfold micros at *
    have hds0 : 0 ≤ end_.tv_sec - start.tv_sec := by omega
    have hds1 : end_.tv_sec - start.tv_sec ≤ 2148 := by omega
    have h1 : subLong end_.tv_sec start.tv_sec = some (end_.tv_sec - start.tv_sec) := by
      unfold subLong
      rw [if_pos]
      constructor <;> norm_num <;> omega
    have h2 : subLong end_.tv_usec start.tv_usec = some (end_.tv_usec - start.tv_usec) := by
      unfold subLong
      rw [if_pos]
      constructor <;> norm_num <;> omega
    unfold latency
    rw [h1, h2]
    simp only
    rw [roundDouble_small (end_.tv_sec - start.tv_sec) (by norm_num; omega) (by norm_num; omega)]
    rw [roundDouble_small ((end_.tv_sec - start.tv_sec) * 1000000)
      (by norm_num; omega) (by norm_num; omega)]
    rw [roundDouble_small (end_.tv_usec - start.tv_usec) (by norm_num; omega) (by norm_num; omega)]
    rw [roundDouble_small _ (by norm_num; omega) (by norm_num; omega)]
    unfold castInt
    rw [if_pos (by constructor <;> norm_num <;> omega)]
    congr 1
    ring
  exact ⟨key, _, key, by omega⟩

/-- C8, witness: from 10.999999 s to 11.000005 s the stored latency is 6. -/
theorem latency_exact_witness :
    latency ⟨10, 999999⟩ ⟨11, 5⟩ = some 6 ∧
    (latency ⟨10, 999999⟩ ⟨11, 5⟩ = some (micros ⟨11, 5⟩ - micros ⟨10, 999999⟩) ∧
      ∃ v, latency ⟨10, 999999⟩ ⟨11, 5⟩ = some v ∧ 0 ≤ v) :=
  ⟨by decide, latency_exact ⟨10, 999999⟩ ⟨11, 5⟩ (by decide) (by decide) (by decide) (by decide)
    (by decide) (by decide)⟩

/-- C7. `queueInit` checks only the allocation of the queue struct: when the
allocation of the mutex, of `notFull` or of `notEmpty` fails, it does not
return `NULL` (it hands the `NULL` pointer to the `pthread_*_init` call), so
`main` reports no failure; the failure of the first allocation is reported. -/
theorem queueInit_unchecked_allocations :
    queueInit 10 (fun _ => default) ⟨true, false, true, true⟩ = InitResult.undefinedBehaviour ∧
    queueInit 10 (fun _ => default) ⟨true, true, false, true⟩ = InitResult.undefinedBehaviour ∧
    queueInit 10 (fun _ => default) ⟨true, true, true, false⟩ = InitResult.undefinedBehaviour ∧
    mainReportsFailure (queueInit 10 (fun _ => default) ⟨true, false, true, true⟩) = false ∧
    mainReportsFailure (queueInit 10 (fun _ => default) ⟨true, true, false, true⟩) = false ∧
    mainReportsFailure (queueInit 10 (fun _ => default) ⟨true, true, true, false⟩) = false ∧
    mainReportsFailure (queueInit 10 (fun _ => default) ⟨false, true, true, true⟩) = true ∧
    queueInit 10 (fun _ => default) ⟨true, true, true, true⟩ =
      InitResult.ok (initQueue 10 (fun _ => default)) := by
  decide

/-- C9 (as stated, refuted). On the empty queue that `queueInit` produces, with
`QUEUESIZE = 10`, it is not the case that `queueDel` leaves `head`, `tail`,
`full` and `empty` unchanged and that a following guarded `queueAdd` gives
`empty == 0` and `full == 0`: `head` becomes 1 and the `queueAdd` sets `full`. -/
theorem del_on_empty_not_noop :
    ¬ ((queueDel 10 (initQueue 10 (fun _ => default))).1.head =
          (initQueue 10 (fun _ => default)).head ∧
        (queueDel 10 (initQueue 10 (fun _ => default))).1.tail =
          (initQueue 10 (fun _ => default)).tail ∧
        (queueDel 10 (initQueue 10 (fun _ => default))).1.full =
          (initQueue 10 (fun _ => default)).full ∧
        (queueDel 10 (initQueue 10 (fun _ => default))).1.empty =
          (initQueue 10 (fun _ => default)).empty ∧
        guardOk (queueDel 10 (initQueue 10 (fun _ => default))).1 (Call.add itemA) = true ∧
        (queueAdd 10 (queueDel 10 (initQueue 10 (fun _ => default))).1 itemA).empty = 0 ∧
        (queueAdd 10 (queueDel 10 (initQueue 10 (fun _ => default))).1 itemA).full = 0) ∧
    (initQueue 10 (fun _ => default)).empty = 1 ∧
    (queueDel 10 (initQueue 10 (fun _ => default))).1.head = 1 ∧
    (queueAdd 10 (queueDel 10 (initQueue 10 (fun _ => default))).1 itemA).full = 1 := by
  decide

/-- C9 (amended). On an empty queue reached by guarded calls (`empty == 1`),
`queueDel` leaves `tail`, `full` and `empty` unchanged and advances `head` by
one modulo `QUEUESIZE`; for `QUEUESIZE > 1` the new `head` differs from the old
one, and a following `queueAdd` (its guard holds) gives `empty == 0`,
`full == 1` and `head == tail`. -/
theorem del_on_empty_advances_head (QUEUESIZE : Nat) (mem : Nat → workFunction)
    (cs : List Call) (h : Hist) (hN : 1 < QUEUESIZE)
    (hg : guarded QUEUESIZE (Hist.init QUEUESIZE mem) cs = true)
    (hr : h = Hist.run QUEUESIZE (Hist.init QUEUESIZE mem) cs)
    (he : h.q.empty = 1) :
    (queueDel QUEUESIZE h.q).1.tail = h.q.tail ∧
    (queueDel QUEUESIZE h.q).1.full = h.q.full ∧
    (queueDel QUEUESIZE h.q).1.empty = h.q.empty ∧
    (queueDel QUEUESIZE h.q).1.head = (h.q.head + 1) % QUEUESIZE ∧
    (queueDel QUEUESIZE h.q).1.head ≠ h.q.head ∧
    ∀ w, guardOk (queueDel QUEUESIZE h.q).1 (Call.add w) = true ∧
      (queueAdd QUEUESIZE (queueDel QUEUESIZE h.q).1 w).empty = 0 ∧
      (queueAdd QUEUESIZE (queueDel QUEUESIZE h.q).1 w).full = 1 ∧
      (queueAdd QUEUESIZE (queueDel QUEUESIZE h.q).1 w).head =
        (queueAdd QUEUESIZE (queueDel QUEUESIZE h.q).1 w).tail := by
  obtain ⟨m, hm⟩ := qinv_run cs _ 0 (qinv_init QUEUESIZE mem (by omega)) hg
  rw [← hr] at hm
  have hee := hm.empty_eq
  have hm0 : m = 0 := by
    by_contra hc
    simp [hc] at hee
    omega
  subst hm0
  have hf := hm.full_eq
  have hf0 : h.q.full = 0 := by
    rw [hf, if_neg (by omega)]
  have hh := hm.head_lt
  have ht : h.q.tail = h.q.head := by
    rw [hm.tail_eq, Nat.add_zero, Nat.mod_eq_of_lt hh]
  have hw := succ_wrap QUEUESIZE h.q.head hh
  refine ⟨by simp [queueDel], by simp [queueDel, hf0], ?_, ?_, ?_, ?_⟩
  · simp only [queueDel, he]
    split_ifs <;> rfl
  · simp only [queueDel]; exact hw
  · simp only [queueDel]
    split_ifs <;> omega
  · intro w
    refine ⟨by simp [guardOk, queueDel], by simp [queueAdd], ?_, ?_⟩
    · simp only [queueAdd, queueDel, ht]
      simp
    · simp only [queueAdd, queueDel, ht]

/-- C9 (amended), witness: the queue of `queueInit` with `QUEUESIZE = 10`. -/
theorem del_on_empty_advances_head_witness :
    (queueDel 10 (Hist.init 10 (fun _ => default)).q).1.tail =
      (Hist.init 10 (fun _ => default)).q.tail ∧
    (queueDel 10 (Hist.init 10 (fun _ => default)).q).1.full =
      (Hist.init 10 (fun _ => default)).q.full ∧
    (queueDel 10 (Hist.init 10 (fun _ => default)).q).1.empty =
      (Hist.init 10 (fun _ => default)).q.empty ∧
    (queueDel 10 (Hist.init 10 (fun _ => default)).q).1.head =
      ((Hist.init 10 (fun _ => default)).q.head + 1) % 10 ∧
    (queueDel 10 (Hist.init 10 (fun _ => default)).q).1.head ≠
      (Hist.init 10 (fun _ => default)).q.head ∧
    ∀ w, guardOk (queueDel 10 (Hist.init 10 (fun _ => default)).q).1 (Call.add w) = true ∧
      (queueAdd 10 (queueDel 10 (Hist.init 10 (fun _ => default)).q).1 w).empty = 0 ∧
      (queueAdd 10 (queueDel 10 (Hist.init 10 (fun _ => default)).q).1 w).full = 1 ∧
      (queueAdd 10 (queueDel 10 (Hist.init 10 (fun _ => default)).q).1 w).head =
        (queueAdd 10 (queueDel 10 (Hist.init 10 (fun _ => default)).q).1 w).tail :=
  del_on_empty_advances_head 10 (fun _ => default) [] (Hist.init 10 (fun _ => default))
    (by decide) (by decide) rfl (by decide)

/-! ## The thread model: invariant, termination and deadlock freedom -/

theorem sumBy_set {α : Type} (f : α → Nat) : ∀ (l : List α) (i : Nat) (a b : α),
    l[i]? = some a → sumBy f (l.set i b) + f a = sumBy f l + f b
  | [], i, a, b, h => by simp at h
  | x :: l, 0, a, b, h => by
    simp at h
    subst h
    simp [sumBy]
    omega
  | x :: l, i + 1, a, b, h => by
    simp at h
    have := sumBy_set f l i a b h
    simp [sumBy] at this ⊢
    omega

theorem sumBy_replicate {α : Type} (f : α → Nat) (n : Nat) (a : α) :
    sumBy f (List.replicate n a) = n * f a := by
  simp [sumBy]

theorem sumBy_eq_zero {α : Type} (f : α → Nat) (l : List α) (h : ∀ x ∈ l, f x = 0) :
    sumBy f l = 0 := by
  induction l with
  | nil => simp [sumBy]
  | cons x l ih =>
    have h1 := h x (List.mem_cons_self _ _)
    have h2 := ih (fun y hy => h y (List.mem_cons_of_mem _ hy))
    simp [sumBy] at h2 ⊢
    omega

theorem sumBy_pos_of_mem {α : Type} (f : α → Nat) (l : List α) (x : α) (hx : x ∈ l)
    (hf : 0 < f x) : 0 < sumBy f l := by
  induction l with
  | nil => simp at hx
  | cons y l ih =>
    simp [sumBy] at ih ⊢
    rcases List.mem_cons.mp hx with h | h
    · subst h; omega
    · have := ih h
      omega

/-- Effect of replacing producer `p` on every count the invariant uses. -/
theorem producers_set (L : Nat) (ps : List ProducerState) (p : Nat) (t u : ProducerState)
    (h : ps[p]? = some t) :
    (∀ pc, sumBy (pAt pc) (ps.set p u) + pcIs pc t.pc = sumBy (pAt pc) ps + pcIs pc u.pc) ∧
    sumBy (left L) (ps.set p u) + left L t = sumBy (left L) ps + left L u ∧
    sumBy (producerPotential L) (ps.set p u) + producerPotential L t =
      sumBy (producerPotential L) ps + producerPotential L u ∧
    (ps.set p u).length = ps.length :=
  ⟨fun pc => sumBy_set (pAt pc) ps p t u h, sumBy_set _ ps p t u h, sumBy_set _ ps p t u h,
    by simp⟩

/-- Effect of replacing consumer `c` on every count the invariant uses. -/
theorem consumers_set (cs : List ConsumerState) (c : Nat) (t u : ConsumerState)
    (h : cs[c]? = some t) :
    (∀ pc, sumBy (cAt pc) (cs.set c u) + pcIs pc t.pc = sumBy (cAt pc) cs + pcIs pc u.pc) ∧
    sumBy consumerPotential (cs.set c u) + consumerPotential t =
      sumBy consumerPotential cs + consumerPotential u ∧
    (cs.set c u).length = cs.length :=
  ⟨fun pc => sumBy_set (cAt pc) cs c t u h, sumBy_set _ cs c t u h, by simp⟩

theorem signalNotEmpty_cases (cs cs' : List ConsumerState) (w : Nat)
    (h : signalNotEmpty cs w = some cs') :
    (cs' = cs ∧ sumBy (cAt Pc.waiting) cs = 0) ∨
    ∃ t, cs[w]? = some t ∧ t.pc = Pc.waiting ∧ cs' = cs.set w { t with pc := Pc.woken } := by
  unfold signalNotEmpty at h
  split_ifs at h with hany
  · right
    cases hget : cs[w]? with
    | none => simp [hget] at h
    | some t =>
      simp only [hget] at h
      split_ifs at h with hpc
      exact ⟨t, rfl, hpc, (Option.some.inj h).symm⟩
  · left
    refine ⟨(Option.some.inj h).symm, ?_⟩
    apply sumBy_eq_zero
    intro x hx
    simp only [List.any_eq_true, not_exists, not_and, decide_eq_true_eq] at hany
    simp [cAt, pcIs, hany x hx]

theorem signalNotFull_cases (ps ps' : List ProducerState) (w : Nat)
    (h : signalNotFull ps w = some ps') :
    (ps' = ps ∧ sumBy (pAt Pc.waiting) ps = 0) ∨
    ∃ t, ps[w]? = some t ∧ t.pc = Pc.waiting ∧ ps' = ps.set w { t with pc := Pc.woken } := by
  unfold signalNotFull at h
  split_ifs at h with hany
  · right
    cases hget : ps[w]? with
    | none => simp [hget] at h
    | some t =>
      simp only [hget] at h
      split_ifs at h with hpc
      exact ⟨t, rfl, hpc, (Option.some.inj h).symm⟩
  · left
    refine ⟨(Option.some.inj h).symm, ?_⟩
    apply sumBy_eq_zero
    intro x hx
    simp only [List.any_eq_true, not_exists, not_and, decide_eq_true_eq] at hany
    simp [pAt, pcIs, hany x hx]

theorem inv_producerSection {cfg : Config} {s : State} {n p : Nat} {t : ProducerState}
    (prod : workFunction) (now : timeval) (hi : Inv cfg s n) (hget : s.producers[p]? = some t)
    (hpc : (t.pc = Pc.top ∧ t.i < cfg.LOOP) ∨ t.pc = Pc.woken) :
    ∃ n', StepOk cfg s (producerSection cfg s p { t with product := prod } now) n' := by
  obtain ⟨hq, hplen, hclen, hclaims, hgate, hprod, hfin, hne, hnf⟩ := hi
  unfold producerSection
  split_ifs with hfull
  · -- the queue is full: `pthread_cond_wait`
    obtain ⟨hc, hl, hpot, hlen⟩ := producers_set cfg.LOOP s.producers p t
      { pc := Pc.waiting, i := t.i, product := prod } hget
    have hw := hc Pc.waiting
    have hk := hc Pc.woken
    have hs := hc Pc.signal
    refine ⟨n, ⟨⟨hq, ?_, hclen, hclaims, hgate, ?_, hfin, ?_, ?_⟩, ?_⟩⟩
    · simp only [hlen, hplen]
    · simp only []
      rcases hpc with ⟨h1, h2⟩ | h1 <;> simp only [left, h1] at hl <;> omega
    · simp only []
      rcases hpc with ⟨h1, h2⟩ | h1 <;> simp [pcIs, h1] at hs <;> omega
    · simp only []
      intro _
      have := hq.full_eq
      split_ifs at this <;> omega
    · simp only [potential]
      rcases hpc with ⟨h1, h2⟩ | h1 <;> simp only [producerPotential, h1] at hpot <;> omega
  · -- the queue is not full: `queueAdd`
    have hfull0 : s.h.q.full = 0 := by omega
    obtain ⟨hc, hl, hpot, hlen⟩ := producers_set cfg.LOOP s.producers p t
      { pc := Pc.signal, i := t.i, product := { prod with start := now } } hget
    have hw := hc Pc.waiting
    have hk := hc Pc.woken
    have hs := hc Pc.signal
    have hq' := qinv_add hq hfull0 { prod with start := now }
    refine ⟨n + 1, ⟨⟨hq', ?_, hclen, ?_, hgate, ?_, hfin, ?_, ?_⟩, ?_⟩⟩
    · simp only [hlen, hplen]
    · simpa [Hist.call] using hclaims
    · simp only [Hist.call, List.length_append, List.length_singleton]
      rcases hpc with ⟨h1, h2⟩ | h1 <;> simp only [left, h1] at hl <;> omega
    · simp only []
      intro h0
      have := hne h0
      rcases hpc with ⟨h1, h2⟩ | h1 <;> simp [pcIs, h1] at hs <;> omega
    · simp only []
      intro h0
      rcases hpc with ⟨h1, h2⟩ | h1 <;> simp [pcIs, h1] at hw hk
      · have := hnf (by omega)
        omega
      · have := hnf (by omega)
        omega
    · simp only [potential]
      rcases hpc with ⟨h1, h2⟩ | h1 <;> simp only [producerPotential, h1] at hpot <;> omega

theorem inv_consumerSection {cfg : Config} {s : State} {n c : Nat} {t : ConsumerState}
    (k : Nat) (now : timeval) (hi : Inv cfg s n) (hget : s.consumers[c]? = some t)
    (hpc : (t.pc = Pc.top ∧ k = 1 ∧ s.consumedProducts ≠ cfg.LOOP * cfg.P) ∨
      (t.pc = Pc.woken ∧ k = 0)) :
    ∃ n', StepOk cfg s
      (consumerSection cfg { s with consumedProducts := s.consumedProducts + k } c t now) n' := by
  obtain ⟨hq, hplen, hclen, hclaims, hgate, hprod, hfin, hne, hnf⟩ := hi
  unfold consumerSection
  simp only []
  split_ifs with hempty
  · -- the queue is empty: `pthread_cond_wait`
    obtain ⟨hc, hpot, hlen⟩ := consumers_set s.consumers c t { t with pc := Pc.waiting } hget
    have hw := hc Pc.waiting
    have hk := hc Pc.woken
    have hs := hc Pc.signal
    have hf := hc Pc.finished
    have hn0 : n = 0 := by
      have := hq.empty_eq
      split_ifs at this <;> omega
    refine ⟨n, ⟨⟨hq, hplen, ?_, ?_, ?_, hprod, ?_, ?_, ?_⟩, ?_⟩⟩
    · simp only [hlen, hclen]
    · simp only []
      rcases hpc with ⟨h1, h2, h3⟩ | ⟨h1, h2⟩ <;> simp [pcIs, h1] at hw hk <;> omega
    · simp only []
      rcases hpc with ⟨h1, h2, h3⟩ | ⟨h1, h2⟩ <;> omega
    · simp only []
      intro h0
      rcases hpc with ⟨h1, h2, h3⟩ | ⟨h1, h2⟩ <;> simp [pcIs, h1] at hf
      · have := hfin (by omega)
        omega
      · have := hfin (by omega)
        omega
    · simp only []
      intro _
      omega
    · simp only []
      intro h0
      have := hnf h0
      rcases hpc with ⟨h1, h2, h3⟩ | ⟨h1, h2⟩ <;> simp [pcIs, h1] at hs <;> omega
    · simp only [potential]
      rcases hpc with ⟨h1, h2, h3⟩ | ⟨h1, h2⟩ <;>
        simp only [consumerPotential, h1] at hpot <;> omega
  · -- the queue is not empty: `queueDel`
    have hempty0 : s.h.q.empty = 0 := by omega
    obtain ⟨hc, hpot, hlen⟩ := consumers_set s.consumers c t
      { pc := Pc.signal, out := { (queueDel cfg.QUEUESIZE s.h.q).2 with end_ := now } } hget
    have hw := hc Pc.waiting
    have hk := hc Pc.woken
    have hs := hc Pc.signal
    have hf := hc Pc.finished
    have hq' := qinv_del hq hempty0
    have hn0 : 0 < n := by
      have := hq.empty_eq
      split_ifs at this <;> omega
    refine ⟨n - 1, ⟨⟨hq', hplen, ?_, ?_, ?_, ?_, ?_, ?_, ?_⟩, ?_⟩⟩
    · simp only [hlen, hclen]
    · simp only [Hist.call, List.length_append, List.length_singleton]
      rcases hpc with ⟨h1, h2, h3⟩ | ⟨h1, h2⟩ <;> simp [pcIs, h1] at hw hk <;> omega
    · simp only []
      rcases hpc with ⟨h1, h2, h3⟩ | ⟨h1, h2⟩ <;> omega
    · simpa [Hist.call] using hprod
    · simp only []
      intro h0
      rcases hpc with ⟨h1, h2, h3⟩ | ⟨h1, h2⟩ <;> simp [pcIs, h1] at hf
      · have := hfin (by omega)
        omega
      · have := hfin (by omega)
        omega
    · simp only []
      intro h0
      rcases hpc with ⟨h1, h2, h3⟩ | ⟨h1, h2⟩ <;> simp [pcIs, h1] at hw hk
      · have := hne (by omega)
        omega
      · have := hne (by omega)
        omega
    · simp only []
      intro h0
      have := hnf h0
      rcases hpc with ⟨h1, h2, h3⟩ | ⟨h1, h2⟩ <;> simp [pcIs, h1] at hs <;> omega
    · simp only [potential]
      rcases hpc with ⟨h1, h2, h3⟩ | ⟨h1, h2⟩ <;>
        simp only [consumerPotential, h1] at hpot <;> omega

theorem inv_producerStep {cfg : Config} {s s' : State} {n p : Nat} {e : Env}
    (hi : Inv cfg s n) (hst : producerStep cfg s p e = some s') :
    ∃ n', StepOk cfg s s' n' := by
  unfold producerStep at hst
  cases hget : s.producers[p]? with
  | none => simp [hget] at hst
  | some t =>
    simp only [hget] at hst
    split at hst
    · -- at the head of the loop
      rename_i hpc
      split_ifs at hst with hlt
      · have := inv_producerSection { e.junk with work := workPtr, args := e.args } e.now hi hget
          (Or.inl ⟨hpc, hlt⟩)
        rw [← Option.some.inj hst]
        exact this
      · rw [← Option.some.inj hst]
        obtain ⟨hq, hplen, hclen, hclaims, hgate, hprod, hfin, hne, hnf⟩ := hi
        obtain ⟨hc, hl, hpot, hlen⟩ := producers_set cfg.LOOP s.producers p t
          { t with pc := Pc.finished } hget
        have hw := hc Pc.waiting
        have hk := hc Pc.woken
        have hs := hc Pc.signal
        simp [pcIs, hpc] at hw hk hs
        simp only [left, hpc] at hl
        simp only [producerPotential, hpc] at hpot
        refine ⟨n, ⟨⟨hq, ?_, hclen, hclaims, hgate, ?_, hfin, ?_, ?_⟩, ?_⟩⟩
        · simp only [hlen, hplen]
        · simp only []; omega
        · simp only []; intro h0; have := hne h0; omega
        · simp only []; intro h0; have := hnf (by omega); omega
        · simp only [potential]; omega
    · -- unblocked from `pthread_cond_wait`
      rename_i hpc
      have := inv_producerSection t.product e.now hi hget (Or.inr hpc)
      rw [← Option.some.inj hst]
      exact this
    · -- `pthread_cond_signal (fifo->notEmpty)`
      rename_i hpc
      cases hsig : signalNotEmpty s.consumers e.wake with
      | none => simp [hsig] at hst
      | some cs =>
        simp only [hsig] at hst
        rw [← Option.some.inj hst]
        obtain ⟨hq, hplen, hclen, hclaims, hgate, hprod, hfin, hne, hnf⟩ := hi
        obtain ⟨hc, hl, hpot, hlen⟩ := producers_set cfg.LOOP s.producers p t
          { t with pc := Pc.top, i := t.i + 1 } hget
        have hw := hc Pc.waiting
        have hk := hc Pc.woken
        have hs := hc Pc.signal
        simp [pcIs, hpc] at hw hk hs
        simp only [left, hpc] at hl
        simp only [producerPotential, hpc] at hpot
        rcases signalNotEmpty_cases _ _ _ hsig with ⟨hsame, hnone⟩ | ⟨u, hu, hupc, hset⟩
        · subst hsame
          refine ⟨n, ⟨⟨hq, ?_, hclen, hclaims, hgate, ?_, hfin, ?_, ?_⟩, ?_⟩⟩
          · simp only [hlen, hplen]
          · simp only []; omega
          · simp only []; intro h0; omega
          · simp only []; intro h0; have := hnf (by omega); omega
          · simp only [potential]; omega
        · subst hset
          obtain ⟨hcc, hcpot, hclen'⟩ := consumers_set s.consumers e.wake u
            { u with pc := Pc.woken } hu
          have hcw := hcc Pc.waiting
          have hck := hcc Pc.woken
          have hcs := hcc Pc.signal
          have hcf := hcc Pc.finished
          simp [pcIs, hupc] at hcw hck hcs hcf
          simp only [consumerPotential, hupc] at hcpot
          refine ⟨n, ⟨⟨hq, ?_, ?_, ?_, hgate, ?_, ?_, ?_, ?_⟩, ?_⟩⟩
          · simp only [hlen, hplen]
          · simp only [hclen', hclen]
          · simp only []; omega
          · simp only []; omega
          · simp only []; intro h0; exact hfin (by omega)
          · simp only []; intro h0; have := hne (by omega); omega
          · simp only []; intro h0; have := hnf (by omega); omega
          · simp only [potential]; omega
    · simp at hst
    · simp at hst

theorem inv_consumerStep {cfg : Config} {s s' : State} {n c : Nat} {e : Env}
    (hi : Inv cfg s n) (hst : consumerStep cfg s c e = some s') :
    ∃ n', StepOk cfg s s' n' := by
  unfold consumerStep at hst
  cases hget : s.consumers[c]? with
  | none => simp [hget] at hst
  | some t =>
    simp only [hget] at hst
    split at hst
    · -- at the head of the loop: the completion check
      rename_i hpc
      split_ifs at hst with hdone
      · rw [← Option.some.inj hst]
        obtain ⟨hq, hplen, hclen, hclaims, hgate, hprod, hfin, hne, hnf⟩ := hi
        obtain ⟨hc, hpot, hlen⟩ := consumers_set s.consumers c t
          { t with pc := Pc.finished } hget
        have hw := hc Pc.waiting
        have hk := hc Pc.woken
        have hs := hc Pc.signal
        simp [pcIs, hpc] at hw hk hs
        simp only [consumerPotential, hpc] at hpot
        refine ⟨n, ⟨⟨hq, hplen, ?_, ?_, hgate, hprod, ?_, ?_, ?_⟩, ?_⟩⟩
        · simp only [hlen, hclen]
        · simp only []; omega
        · simp only []; intro _; exact hdone
        · simp only []; intro h0; have := hne (by omega); omega
        · simp only []; intro h0; have := hnf h0; omega
        · simp only [potential]; omega
      · have := inv_consumerSection 1 e.now hi hget (Or.inl ⟨hpc, rfl, hdone⟩)
        rw [← Option.some.inj hst]
        exact this
    · -- unblocked from `pthread_cond_wait`
      rename_i hpc
      have := inv_consumerSection 0 e.now hi hget (Or.inr ⟨hpc, rfl⟩)
      rw [← Option.some.inj hst]
      exact this
    · -- `pthread_cond_signal (fifo->notFull)`
      rename_i hpc
      cases hsig : signalNotFull s.producers e.wake with
      | none => simp [hsig] at hst
      | some ps =>
        simp only [hsig] at hst
        rw [← Option.some.inj hst]
        obtain ⟨hq, hplen, hclen, hclaims, hgate, hprod, hfin, hne, hnf⟩ := hi
        obtain ⟨hc, hpot, hlen⟩ := consumers_set s.consumers c t { t with pc := Pc.top } hget
        have hw := hc Pc.waiting
        have hk := hc Pc.woken
        have hs := hc Pc.signal
        have hf := hc Pc.finished
        simp [pcIs, hpc] at hw hk hs hf
        simp only [consumerPotential, hpc] at hpot
        rcases signalNotFull_cases _ _ _ hsig with ⟨hsame, hnone⟩ | ⟨u, hu, hupc, hset⟩
        · subst hsame
          refine ⟨n, ⟨⟨hq, hplen, ?_, ?_, hgate, hprod, ?_, ?_, ?_⟩, ?_⟩⟩
          · simp only [hlen, hclen]
          · simp only []; omega
          · simp only []; intro h0; exact hfin (by omega)
          · simp only []; intro h0; have := hne (by omega); omega
          · simp only []; intro h0; omega
          · simp only [potential]; omega
        · subst hset
          obtain ⟨hpc', hpl, hppot, hplen'⟩ := producers_set cfg.LOOP s.producers e.wake u
            { u with pc := Pc.woken } hu
          have hpw := hpc' Pc.waiting
          have hpk := hpc' Pc.woken
          have hps := hpc' Pc.signal
          simp [pcIs, hupc] at hpw hpk hps
          simp only [left, hupc] at hpl
          simp only [producerPotential, hupc] at hppot
          refine ⟨n, ⟨⟨hq, ?_, ?_, ?_, hgate, ?_, ?_, ?_, ?_⟩, ?_⟩⟩
          · simp only [hplen', hplen]
          · simp only [hlen, hclen]
          · simp only []; omega
          · simp only []; omega
          · simp only []; intro h0; exact hfin (by omega)
          · simp only []; intro h0; have := hne (by omega); omega
          · simp only []; intro h0; have := hnf (by omega); omega
          · simp only [potential]; omega
    · simp at hst
    · simp at hst

theorem inv_spurious {cfg : Config} {s s' : State} {n : Nat} {a : Action}
    (hi : Inv cfg s n) (hst : step cfg s a = some s') (ha : a.isSpurious = true) :
    Inv cfg s' n ∧ potential cfg s' = potential cfg s + 1 := by
  obtain ⟨hq, hplen, hclen, hclaims, hgate, hprod, hfin, hne, hnf⟩ := hi
  cases a with
  | producer p e => simp [Action.isSpurious] at ha
  | consumer c e => simp [Action.isSpurious] at ha
  | spuriousProducer p =>
    simp only [step] at hst
    cases hget : s.producers[p]? with
    | none => simp [hget] at hst
    | some t =>
      simp only [hget] at hst
      split_ifs at hst with hpc
      rw [← Option.some.inj hst]
      obtain ⟨hc, hl, hpot, hlen⟩ := producers_set cfg.LOOP s.producers p t
        { t with pc := Pc.woken } hget
      have hw := hc Pc.waiting
      have hk := hc Pc.woken
      have hs := hc Pc.signal
      simp [pcIs, hpc] at hw hk hs
      simp only [left, hpc] at hl
      simp only [producerPotential, hpc] at hpot
      refine ⟨⟨hq, ?_, hclen, hclaims, hgate, ?_, hfin, ?_, ?_⟩, ?_⟩
      · simp only [hlen, hplen]
      · simp only []; omega
      · simp only []; intro h0; have := hne h0; omega
      · simp only []; intro h0; have := hnf (by omega); omega
      · simp only [potential]; omega
  | spuriousConsumer c =>
    simp only [step] at hst
    cases hget : s.consumers[c]? with
    | none => simp [hget] at hst
    | some t =>
      simp only [hget] at hst
      split_ifs at hst with hpc
      rw [← Option.some.inj hst]
      obtain ⟨hc, hpot, hlen⟩ := consumers_set s.consumers c t { t with pc := Pc.woken } hget
      have hw := hc Pc.waiting
      have hk := hc Pc.woken
      have hs := hc Pc.signal
      have hf := hc Pc.finished
      simp [pcIs, hpc] at hw hk hs hf
      simp only [consumerPotential, hpc] at hpot
      refine ⟨⟨hq, hplen, ?_, ?_, hgate, hprod, ?_, ?_, ?_⟩, ?_⟩
      · simp only [hlen, hclen]
      · simp only []; omega
      · simp only []; intro h0; exact hfin (by omega)
      · simp only []; intro h0; have := hne (by omega); omega
      · simp only []; intro h0; have := hnf h0; omega
      · simp only [potential]; omega

theorem inv_step {cfg : Config} {s s' : State} {n : Nat} {a : Action}
    (hi : Inv cfg s n) (hst : step cfg s a = some s') :
    ∃ n', Inv cfg s' n' ∧
      potential cfg s' + 1 ≤ potential cfg s + 2 * (if a.isSpurious then 1 else 0) := by
  by_cases ha : a.isSpurious = true
  · obtain ⟨h1, h2⟩ := inv_spurious hi hst ha
    exact ⟨n, h1, by simp [ha]; omega⟩
  · cases a with
    | producer p e =>
      obtain ⟨n', h1, h2⟩ := inv_producerStep hi (by simpa [step] using hst)
      exact ⟨n', h1, by simp [Action.isSpurious]; omega⟩
    | consumer c e =>
      obtain ⟨n', h1, h2⟩ := inv_consumerStep hi (by simpa [step] using hst)
      exact ⟨n', h1, by simp [Action.isSpurious]; omega⟩
    | spuriousProducer p => simp [Action.isSpurious] at ha
    | spuriousConsumer c => simp [Action.isSpurious] at ha

theorem inv_init (cfg : Config) (mem : Nat → workFunction) (hN : 0 < cfg.QUEUESIZE) :
    Inv cfg (State.init cfg mem) 0 := by
  have hz : ∀ pc, pc ≠ Pc.top → sumBy (cAt pc) (State.init cfg mem).consumers = 0 := by
    intro pc hpc
    simp [State.init, sumBy_replicate, cAt, pcIs, hpc.symm]
  have hzp : ∀ pc, pc ≠ Pc.top → sumBy (pAt pc) (State.init cfg mem).producers = 0 := by
    intro pc hpc
    simp [State.init, sumBy_replicate, pAt, pcIs, hpc.symm]
  refine ⟨qinv_init _ mem hN, by simp [State.init], by simp [State.init], ?_, ?_, ?_, ?_, ?_, ?_⟩
  · rw [hz _ (by decide), hz _ (by decide)]
    simp [State.init, Hist.init]
  · simp [State.init]
  · simp [State.init, Hist.init, sumBy_replicate, left, Nat.mul_comm]
  · rw [hz _ (by decide)]; intro h; omega
  · rw [hz _ (by decide)]; intro h; omega
  · rw [hzp _ (by decide)]; intro h; omega

theorem inv_run {cfg : Config} : ∀ (as : List Action) (s s' : State) (n : Nat),
    Inv cfg s n → run cfg s as = some s' →
    ∃ n', Inv cfg s' n' ∧ potential cfg s' + as.length ≤ potential cfg s + 2 * spuriousCount as
  | [], s, s', n, hi, hr => by
    simp only [run] at hr
    rw [← Option.some.inj hr]
    exact ⟨n, hi, by simp [spuriousCount]⟩
  | a :: as, s, s', n, hi, hr => by
    simp only [run] at hr
    cases hst : step cfg s a with
    | none => simp [hst] at hr
    | some s1 =>
      simp only [hst] at hr
      obtain ⟨n1, h1, hp1⟩ := inv_step hi hst
      obtain ⟨n', h2, hp2⟩ := inv_run as s1 s' n1 h1 hr
      refine ⟨n', h2, ?_⟩
      by_cases ha : a.isSpurious = true
      · simp [ha] at hp1
        simp [spuriousCount, List.filter_cons, ha] at hp2 ⊢
        omega
      · simp [ha] at hp1
        simp [spuriousCount, List.filter_cons, ha] at hp2 ⊢
        omega

theorem allFinished_iff (s : State) :
    s.allFinished = true ↔
      (∀ t ∈ s.producers, t.pc = Pc.finished) ∧ (∀ t ∈ s.consumers, t.pc = Pc.finished) := by
  simp [State.allFinished]

theorem left_sum_zero (L : Nat) (ps : List ProducerState)
    (h : ∀ t ∈ ps, t.pc = Pc.finished) : sumBy (left L) ps = 0 :=
  sumBy_eq_zero _ _ (fun t ht => by simp [left, h t ht])

theorem pAt_sum_zero (pc : Pc) (ps : List ProducerState)
    (h : ∀ t ∈ ps, t.pc ≠ pc) : sumBy (pAt pc) ps = 0 :=
  sumBy_eq_zero _ _ (fun t ht => by simp [pAt, pcIs, h t ht])

theorem cAt_sum_zero (pc : Pc) (cs : List ConsumerState)
    (h : ∀ t ∈ cs, t.pc ≠ pc) : sumBy (cAt pc) cs = 0 :=
  sumBy_eq_zero _ _ (fun t ht => by simp [cAt, pcIs, h t ht])

theorem pAt_sum_pos (pc : Pc) (ps : List ProducerState) (t : ProducerState) (ht : t ∈ ps)
    (h : t.pc = pc) : 0 < sumBy (pAt pc) ps :=
  sumBy_pos_of_mem _ _ t ht (by simp [pAt, pcIs, h])

theorem cAt_sum_pos (pc : Pc) (cs : List ConsumerState) (t : ConsumerState) (ht : t ∈ cs)
    (h : t.pc = pc) : 0 < sumBy (cAt pc) cs :=
  sumBy_pos_of_mem _ _ t ht (by simp [cAt, pcIs, h])

/-- When every thread has returned, the queue is empty and everything added
has been removed, in order. -/
theorem inv_allFinished {cfg : Config} {s : State} {n : Nat} (hi : Inv cfg s n)
    (hQ : 0 < cfg.Q) (hfin : s.allFinished = true) :
    n = 0 ∧ s.h.added.length = cfg.LOOP * cfg.P ∧ s.h.removed.length = cfg.LOOP * cfg.P ∧
      s.consumedProducts = cfg.LOOP * cfg.P := by
  obtain ⟨hp, hc⟩ := (allFinished_iff s).mp hfin
  have hl := left_sum_zero cfg.LOOP _ hp
  have hw := cAt_sum_zero Pc.waiting _ (fun t ht => by rw [hc t ht]; decide)
  have hk := cAt_sum_zero Pc.woken _ (fun t ht => by rw [hc t ht]; decide)
  obtain ⟨t, ht⟩ : ∃ t, t ∈ s.consumers := by
    apply List.exists_mem_of_length_pos
    rw [hi.clen]
    exact hQ
  have hf := cAt_sum_pos Pc.finished _ t ht (hc t ht)
  have h1 := hi.fin hf
  have h2 := hi.claims
  have h3 := hi.prod
  have h4 := qinv_length_eq hi.q
  omega

theorem signalNotEmpty_enabled (cs : List ConsumerState) :
    ∃ w, (signalNotEmpty cs w).isSome = true := by
  by_cases hany : cs.any (fun t => t.pc = Pc.waiting) = true
  · obtain ⟨t, ht, hpc⟩ := List.any_eq_true.mp hany
    obtain ⟨w, hw⟩ := List.mem_iff_getElem?.mp ht
    refine ⟨w, ?_⟩
    simp only [decide_eq_true_eq] at hpc
    simp [signalNotEmpty, hany, hw, hpc]
  · exact ⟨0, by simp [signalNotEmpty, hany]⟩

theorem signalNotFull_enabled (ps : List ProducerState) :
    ∃ w, (signalNotFull ps w).isSome = true := by
  by_cases hany : ps.any (fun t => t.pc = Pc.waiting) = true
  · obtain ⟨t, ht, hpc⟩ := List.any_eq_true.mp hany
    obtain ⟨w, hw⟩ := List.mem_iff_getElem?.mp ht
    refine ⟨w, ?_⟩
    simp only [decide_eq_true_eq] at hpc
    simp [signalNotFull, hany, hw, hpc]
  · exact ⟨0, by simp [signalNotFull, hany]⟩

theorem producer_enabled (cfg : Config) (s : State) (p : Nat) (t : ProducerState)
    (hget : s.producers[p]? = some t) (h1 : t.pc ≠ Pc.waiting) (h2 : t.pc ≠ Pc.finished) :
    ∃ e, (producerStep cfg s p e).isSome = true := by
  obtain ⟨w, hw⟩ := signalNotEmpty_enabled s.consumers
  refine ⟨{ (default : Env) with wake := w }, ?_⟩
  unfold producerStep
  simp only [hget]
  cases hpc : t.pc with
  | top => simp only []; split_ifs <;> rfl
  | waiting => exact absurd hpc h1
  | woken => rfl
  | signal =>
    simp only []
    cases hs : signalNotEmpty s.consumers w with
    | none => simp [hs] at hw
    | some cs => rfl
  | finished => exact absurd hpc h2

theorem consumer_enabled (cfg : Config) (s : State) (c : Nat) (t : ConsumerState)
    (hget : s.consumers[c]? = some t) (h1 : t.pc ≠ Pc.waiting) (h2 : t.pc ≠ Pc.finished) :
    ∃ e, (consumerStep cfg s c e).isSome = true := by
  obtain ⟨w, hw⟩ := signalNotFull_enabled s.producers
  refine ⟨{ (default : Env) with wake := w }, ?_⟩
  unfold consumerStep
  simp only [hget]
  cases hpc : t.pc with
  | top => simp only []; split_ifs <;> rfl
  | waiting => exact absurd hpc h1
  | woken => rfl
  | signal =>
    simp only []
    cases hs : signalNotFull s.producers w with
    | none => simp [hs] at hw
    | some cs => rfl
  | finished => exact absurd hpc h2

/-- No reachable state has all its unfinished threads blocked. -/
theorem inv_not_stuck {cfg : Config} {s : State} {n : Nat} (hi : Inv cfg s n)
    (hN : 0 < cfg.QUEUESIZE) (hQ : 0 < cfg.Q)
    (hp : ∀ t ∈ s.producers, t.pc = Pc.waiting ∨ t.pc = Pc.finished)
    (hc : ∀ t ∈ s.consumers, t.pc = Pc.waiting ∨ t.pc = Pc.finished) :
    s.allFinished = true := by
  by_contra hnot
  have hps := pAt_sum_zero Pc.signal _ (fun t ht => by rcases hp t ht with h | h <;> rw [h] <;> decide)
  have hpk := pAt_sum_zero Pc.woken _ (fun t ht => by rcases hp t ht with h | h <;> rw [h] <;> decide)
  have hcs := cAt_sum_zero Pc.signal _ (fun t ht => by rcases hc t ht with h | h <;> rw [h] <;> decide)
  have hck := cAt_sum_zero Pc.woken _ (fun t ht => by rcases hc t ht with h | h <;> rw [h] <;> decide)
  have h2 := hi.claims
  have h3 := hi.prod
  have h4 := qinv_length_eq hi.q
  have h5 := hi.gate
  by_cases hcw : ∃ t ∈ s.consumers, t.pc = Pc.waiting
  · obtain ⟨t, ht, htpc⟩ := hcw
    have hw := cAt_sum_pos Pc.waiting _ t ht htpc
    have hne := hi.notEmpty hw
    have hpfin : ∀ u ∈ s.producers, u.pc = Pc.finished := by
      intro u hu
      rcases hp u hu with h | h
      · have := hi.notFull (pAt_sum_pos Pc.waiting _ u hu h)
        omega
      · exact h
    have hl := left_sum_zero cfg.LOOP _ hpfin
    omega
  · have hcfin : ∀ u ∈ s.consumers, u.pc = Pc.finished := by
      intro u hu
      rcases hc u hu with h | h
      · exact absurd ⟨u, hu, h⟩ hcw
      · exact h
    have hpw : ∃ t ∈ s.producers, t.pc = Pc.waiting := by
      by_contra hno
      apply hnot
      rw [allFinished_iff]
      refine ⟨fun u hu => ?_, hcfin⟩
      rcases hp u hu with h | h
      · exact absurd ⟨u, hu, h⟩ hno
      · exact h
    obtain ⟨t, ht, htpc⟩ := hpw
    have hnf := hi.notFull (pAt_sum_pos Pc.waiting _ t ht htpc)
    have hw := cAt_sum_zero Pc.waiting _ (fun u hu => by rw [hcfin u hu]; decide)
    obtain ⟨u, hu⟩ : ∃ u, u ∈ s.consumers := by
      apply List.exists_mem_of_length_pos
      rw [hi.clen]
      exact hQ
    have hf := hi.fin (cAt_sum_pos Pc.finished _ u hu (hcfin u hu))
    omega

theorem potential_init (cfg : Config) (mem : Nat → workFunction) :
    potential cfg (State.init cfg mem) = 8 * (cfg.LOOP * cfg.P) + cfg.P + cfg.Q := by
  simp [potential, State.init, sumBy_replicate, producerPotential, consumerPotential]
  ring

theorem run_eq_reach (cfg : Config) (as : List Action)
    (h : (run cfg (State.init cfg (fun _ => default)) as).isSome = true) :
    run cfg (State.init cfg (fun _ => default)) as = some (reach cfg as) := by
  unfold reach
  cases hr : run cfg (State.init cfg (fun _ => default)) as with
  | none => simp [hr] at h
  | some s => rfl

/-- C3. The consumer stores to `times[consumedProducts-1]` with the value the
shared counter has at the moment of the store, not at the moment of the claim.
In the scenario of the specification (2 producers of 3 items, 3 consumers) the
schedule `raceSchedule` is a complete run, every thread returns, and the indices
stored to are 1, 1, 2, 4, 5, 5: index 1 and index 5 are stored to twice, indices
0 and 3 never.  With the constants of the source and 2 consumers, the first 9
steps of the same schedule store twice to index 1: consumer 0 claims when the
counter is 0 (step 1), consumer 1 claims next (step 2), and the store of
consumer 0 (step 5) goes to index 1. -/
theorem times_index_race :
    (reach smallConfig raceSchedule).allFinished = true ∧
    (reach smallConfig raceSchedule).writes = [1, 1, 2, 4, 5, 5] ∧
    (reach smallConfig raceSchedule).times[0]? = some none ∧
    (reach smallConfig raceSchedule).times[3]? = some none ∧
    (run smallConfig (State.init smallConfig (fun _ => default)) raceSchedule).isSome = true ∧
    (run sourceConfig (State.init sourceConfig (fun _ => default)) (raceSchedule.take 9)).isSome
      = true ∧
    (reach sourceConfig (raceSchedule.take 1)).consumedProducts = 1 ∧
    (reach sourceConfig (raceSchedule.take 2)).consumedProducts = 2 ∧
    (reach sourceConfig (raceSchedule.take 5)).writes = [1] ∧
    (reach sourceConfig (raceSchedule.take 9)).writes = [1, 1] := by
  decide

theorem producerSection_consumedProducts (cfg : Config) (s : State) (p : Nat)
    (t : ProducerState) (now : timeval) :
    (producerSection cfg s p t now).consumedProducts = s.consumedProducts := by
  unfold producerSection
  split_ifs <;> rfl

theorem consumerSection_consumedProducts (cfg : Config) (s : State) (c : Nat)
    (t : ConsumerState) (now : timeval) :
    (consumerSection cfg s c t now).consumedProducts = s.consumedProducts := by
  unfold consumerSection
  split_ifs <;> rfl

theorem step_consumedProducts (cfg : Config) (s s' : State) (a : Action)
    (hst : step cfg s a = some s') :
    s'.consumedProducts = s.consumedProducts + (if isClaim cfg s a then 1 else 0) := by
  cases a with
  | producer p e =>
    simp only [isClaim, Bool.false_eq_true, if_false, Nat.add_zero]
    simp only [step, producerStep] at hst
    cases hget : s.producers[p]? with
    | none => simp [hget] at hst
    | some t =>
      simp only [hget] at hst
      split at hst
      · split_ifs at hst
        · rw [← Option.some.inj hst, producerSection_consumedProducts]
        · rw [← Option.some.inj hst]
      · rw [← Option.some.inj hst, producerSection_consumedProducts]
      · cases hsig : signalNotEmpty s.consumers e.wake with
        | none => simp [hsig] at hst
        | some cs =>
          simp only [hsig] at hst
          rw [← Option.some.inj hst]
      · simp at hst
      · simp at hst
  | consumer c e =>
    simp only [step, consumerStep] at hst
    cases hget : s.consumers[c]? with
    | none => simp [hget] at hst
    | some t =>
      simp only [hget] at hst
      split at hst
      · rename_i hpc
        split_ifs at hst with hdone
        · have hcl : isClaim cfg s (Action.consumer c e) = false := by
            simp [isClaim, hget, hpc, hdone]
          rw [← Option.some.inj hst, hcl]
          rfl
        · have hcl : isClaim cfg s (Action.consumer c e) = true := by
            simp [isClaim, hget, hpc, hdone]
          rw [← Option.some.inj hst, hcl, consumerSection_consumedProducts]
          rfl
      · rename_i hpc
        have hcl : isClaim cfg s (Action.consumer c e) = false := by
          simp [isClaim, hget, hpc]
        rw [← Option.some.inj hst, hcl, consumerSection_consumedProducts]
        rfl
      · rename_i hpc
        have hcl : isClaim cfg s (Action.consumer c e) = false := by
          simp [isClaim, hget, hpc]
        cases hsig : signalNotFull s.producers e.wake with
        | none => simp [hsig] at hst
        | some cs =>
          simp only [hsig] at hst
          rw [← Option.some.inj hst, hcl]
          rfl
      · simp at hst
      · simp at hst
  | spuriousProducer p =>
    simp only [isClaim, Bool.false_eq_true, if_false, Nat.add_zero]
    simp only [step] at hst
    cases hget : s.producers[p]? with
    | none => simp [hget] at hst
    | some t =>
      simp only [hget] at hst
      split_ifs at hst
      rw [← Option.some.inj hst]
  | spuriousConsumer c =>
    simp only [isClaim, Bool.false_eq_true, if_false, Nat.add_zero]
    simp only [step] at hst
    cases hget : s.consumers[c]? with
    | none => simp [hget] at hst
    | some t =>
      simp only [hget] at hst
      split_ifs at hst
      rw [← Option.some.inj hst]

theorem run_claimCount {cfg : Config} : ∀ (as : List Action) (s s' : State),
    run cfg s as = some s' → s'.consumedProducts = s.consumedProducts + claimCount cfg s as
  | [], s, s', hr => by
    simp only [run] at hr
    rw [← Option.some.inj hr]
    rfl
  | a :: as, s, s', hr => by
    simp only [run] at hr
    cases hst : step cfg s a with
    | none => simp [hst] at hr
    | some s1 =>
      simp only [hst] at hr
      have h1 := step_consumedProducts cfg s s1 a hst
      have h2 := run_claimCount as s1 s' hr
      simp only [claimCount, hst]
      omega

/-- C4. Completion gate: in every state reachable from the initial state of a
trial (any number of consumers, spurious wakeups included),
`consumedProducts <= LOOP*P`, `consumedProducts` is the number of claims made
so far, and the number of `queueDel` calls made is at most `consumedProducts`;
every step leaves `consumedProducts` unchanged except a
claim, which adds exactly 1; and a consumer at the head of its loop that finds
`consumedProducts == LOOP*P` can take its step, which only moves it to its
terminal state: the counter, the queue, the history of `queueAdd`/`queueDel`
calls, `times` and the other threads are unchanged. -/
theorem completion_gate (cfg : Config) (mem : Nat → workFunction) (as : List Action)
    (s : State) (hN : 0 < cfg.QUEUESIZE)
    (hr : run cfg (State.init cfg mem) as = some s) :
    (State.init cfg mem).consumedProducts = 0 ∧
    s.consumedProducts ≤ cfg.LOOP * cfg.P ∧
    claimCount cfg (State.init cfg mem) as = s.consumedProducts ∧
    s.h.removed.length ≤ s.consumedProducts ∧
    s.h.removed.length ≤ cfg.LOOP * cfg.P ∧
    (∀ a s', step cfg s a = some s' →
      s'.consumedProducts = s.consumedProducts + (if isClaim cfg s a then 1 else 0)) ∧
    (∀ c e t, s.consumers[c]? = some t → t.pc = Pc.top →
      s.consumedProducts = cfg.LOOP * cfg.P →
      step cfg s (Action.consumer c e) =
        some { s with consumers := s.consumers.set c { t with pc := Pc.finished } }) := by
  obtain ⟨n, hi, _⟩ := inv_run as _ s 0 (inv_init cfg mem hN) hr
  have h1 := hi.gate
  have h2 := hi.claims
  have h3 := run_claimCount as _ s hr
  have h4 : (State.init cfg mem).consumedProducts = 0 := rfl
  refine ⟨rfl, h1, by omega, by omega, by omega,
    fun a s' hst => step_consumedProducts cfg s s' a hst, ?_⟩
  intro c e t hget hpc hdone
  simp [step, consumerStep, hget, hpc, hdone]

/-- C4, witness: the state at the end of `raceSchedule`, where the six claims of
the small scenario have been made. -/
theorem completion_gate_witness :
    (reach smallConfig raceSchedule).consumedProducts = 6 ∧
    ((State.init smallConfig (fun _ => default)).consumedProducts = 0 ∧
    (reach smallConfig raceSchedule).consumedProducts ≤ smallConfig.LOOP * smallConfig.P ∧
    claimCount smallConfig (State.init smallConfig (fun _ => default)) raceSchedule =
      (reach smallConfig raceSchedule).consumedProducts ∧
    (reach smallConfig raceSchedule).h.removed.length ≤
      (reach smallConfig raceSchedule).consumedProducts ∧
    (reach smallConfig raceSchedule).h.removed.length ≤ smallConfig.LOOP * smallConfig.P ∧
    (∀ a s', step smallConfig (reach smallConfig raceSchedule) a = some s' →
      s'.consumedProducts = (reach smallConfig raceSchedule).consumedProducts +
        (if isClaim smallConfig (reach smallConfig raceSchedule) a then 1 else 0)) ∧
    (∀ c e t, (reach smallConfig raceSchedule).consumers[c]? = some t → t.pc = Pc.top →
      (reach smallConfig raceSchedule).consumedProducts = smallConfig.LOOP * smallConfig.P →
      step smallConfig (reach smallConfig raceSchedule) (Action.consumer c e) =
        some { (reach smallConfig raceSchedule) with
          consumers := (reach smallConfig raceSchedule).consumers.set c
            { t with pc := Pc.finished } })) :=
  ⟨by decide, completion_gate smallConfig (fun _ => default) raceSchedule
    (reach smallConfig raceSchedule) (by decide) (by decide)⟩

/-- C5. No lost or duplicated items: in every run of a trial with at least one
consumer after which every producer and every consumer has returned,
`queueDel` has been called exactly `LOOP*P` times and so has `queueAdd`, the
queue is empty (`empty == 1`, nothing between `head` and `tail`), and the items
returned by `queueDel` are the items passed to `queueAdd`, in the same order;
in particular the two multisets are equal. -/
theorem no_lost_items (cfg : Config) (mem : Nat → workFunction) (as : List Action)
    (s : State) (hN : 0 < cfg.QUEUESIZE) (hQ : 0 < cfg.Q)
    (hr : run cfg (State.init cfg mem) as = some s) (hfin : s.allFinished = true) :
    s.h.removed.length = cfg.LOOP * cfg.P ∧
    s.h.added.length = cfg.LOOP * cfg.P ∧
    s.h.q.empty = 1 ∧
    contents cfg.QUEUESIZE s.h.q = [] ∧
    s.h.removed = s.h.added ∧
    (s.h.removed : Multiset workFunction) = (s.h.added : Multiset workFunction) := by
  obtain ⟨n, hi, _⟩ := inv_run as _ s 0 (inv_init cfg mem hN) hr
  obtain ⟨hn, ha, hd, _⟩ := inv_allFinished hi hQ hfin
  subst hn
  have he := hi.q.empty_eq
  have hh := hi.q.hist
  have hc : contents cfg.QUEUESIZE s.h.q = [] := by
    rw [contents, qinv_held_eq hi.q]; rfl
  have heq : s.h.removed = s.h.added := by
    rw [hh]; simp [readFrom]
  refine ⟨hd, ha, by simpa using he, hc, heq, by rw [heq]⟩

/-- C5, witness: the complete run `raceSchedule` of the small scenario. -/
theorem no_lost_items_witness :
    (reach smallConfig raceSchedule).h.removed.length = 6 ∧
    ((reach smallConfig raceSchedule).h.removed.length = smallConfig.LOOP * smallConfig.P ∧
    (reach smallConfig raceSchedule).h.added.length = smallConfig.LOOP * smallConfig.P ∧
    (reach smallConfig raceSchedule).h.q.empty = 1 ∧
    contents smallConfig.QUEUESIZE (reach smallConfig raceSchedule).h.q = [] ∧
    (reach smallConfig raceSchedule).h.removed = (reach smallConfig raceSchedule).h.added ∧
    ((reach smallConfig raceSchedule).h.removed : Multiset workFunction) =
      ((reach smallConfig raceSchedule).h.added : Multiset workFunction)) :=
  ⟨by decide, no_lost_items smallConfig (fun _ => default) raceSchedule
    (reach smallConfig raceSchedule) (by decide) (by decide) (by decide) (by decide)⟩

/-- In a reachable state where some thread has not returned, a step other than
a spurious wakeup is enabled. -/
theorem inv_enabled {cfg : Config} {s : State} {n : Nat} (hi : Inv cfg s n)
    (hN : 0 < cfg.QUEUESIZE) (hQ : 0 < cfg.Q) (hnot : s.allFinished = false) :
    ∃ a, a.isSpurious = false ∧ (step cfg s a).isSome = true := by
  by_cases hp : ∀ t ∈ s.producers, t.pc = Pc.waiting ∨ t.pc = Pc.finished
  · by_cases hc : ∀ t ∈ s.consumers, t.pc = Pc.waiting ∨ t.pc = Pc.finished
    · have := inv_not_stuck hi hN hQ hp hc
      rw [this] at hnot
      exact absurd hnot (by decide)
    · push_neg at hc
      obtain ⟨t, ht, h1, h2⟩ := hc
      obtain ⟨c, hget⟩ := List.mem_iff_getElem?.mp ht
      obtain ⟨e, he⟩ := consumer_enabled cfg s c t hget h1 h2
      exact ⟨Action.consumer c e, rfl, he⟩
  · push_neg at hp
    obtain ⟨t, ht, h1, h2⟩ := hp
    obtain ⟨p, hget⟩ := List.mem_iff_getElem?.mp ht
    obtain ⟨e, he⟩ := producer_enabled cfg s p t hget h1 h2
    exact ⟨Action.producer p e, rfl, he⟩

/-- From a state that satisfies the invariant, some schedule without spurious
wakeups leads to the state where every thread has returned. -/
theorem inv_finish {cfg : Config} (hN : 0 < cfg.QUEUESIZE) (hQ : 0 < cfg.Q) :
    ∀ (k : Nat) (s : State) (n : Nat), Inv cfg s n → potential cfg s ≤ k →
      ∃ as s', spuriousCount as = 0 ∧ run cfg s as = some s' ∧ s'.allFinished = true
  | k, s, n, hi, hk => by
    by_cases hfin : s.allFinished = true
    · exact ⟨[], s, rfl, rfl, hfin⟩
    · obtain ⟨a, ha, hen⟩ := inv_enabled hi hN hQ (by simpa using hfin)
      cases hst : step cfg s a with
      | none => simp [hst] at hen
      | some s1 =>
        obtain ⟨n1, hi1, hp1⟩ := inv_step hi hst
        simp only [ha, Bool.false_eq_true, if_false, Nat.mul_zero, Nat.add_zero] at hp1
        match k with
        | 0 => omega
        | k + 1 =>
          obtain ⟨as, s', h1, h2, h3⟩ := inv_finish hN hQ k s1 n1 hi1 (by omega)
          refine ⟨a :: as, s', ?_, ?_, h3⟩
          · simp only [spuriousCount, List.filter_cons, ha, Bool.false_eq_true, if_false]
            exact h1
          · simp only [run, hst]
            exact h2

/-- C6. No deadlock: in a trial with a queue of at least one slot and at least
one consumer, every reachable state in which some thread has not returned has
an enabled step that is not a spurious wakeup; a schedule of the trial has at
most `8*LOOP*P + P + Q` steps plus two per spurious wakeup; and from every
reachable state a schedule without spurious wakeups leads to the state where
every thread has returned.  Hence every schedule without spurious wakeups is
finite and, once it cannot be extended, every thread has returned. -/
theorem no_deadlock (cfg : Config) (mem : Nat → workFunction) (as : List Action)
    (s : State) (hN : 0 < cfg.QUEUESIZE) (hQ : 0 < cfg.Q)
    (hr : run cfg (State.init cfg mem) as = some s) :
    (s.allFinished = false →
      ∃ a, a.isSpurious = false ∧ (step cfg s a).isSome = true) ∧
    as.length ≤ 8 * (cfg.LOOP * cfg.P) + cfg.P + cfg.Q + 2 * spuriousCount as ∧
    (∃ as' s', spuriousCount as' = 0 ∧ run cfg s as' = some s' ∧ s'.allFinished = true) := by
  obtain ⟨n, hi, hpot⟩ := inv_run as _ s 0 (inv_init cfg mem hN) hr
  rw [potential_init] at hpot
  exact ⟨fun hnot => inv_enabled hi hN hQ hnot, by omega,
    inv_finish hN hQ (potential cfg s) s n hi (Nat.le_refl _)⟩

/-- C6, witness: with the constants of the source, the state in which both
consumers have claimed and are blocked on the empty queue. -/
theorem no_deadlock_witness :
    (reach sourceConfig (raceSchedule.take 2)).allFinished = false ∧
    (((reach sourceConfig (raceSchedule.take 2)).allFinished = false →
      ∃ a, a.isSpurious = false ∧
        (step sourceConfig (reach sourceConfig (raceSchedule.take 2)) a).isSome = true) ∧
    (raceSchedule.take 2).length ≤ 8 * (sourceConfig.LOOP * sourceConfig.P) + sourceConfig.P +
      sourceConfig.Q + 2 * spuriousCount (raceSchedule.take 2) ∧
    (∃ as' s', spuriousCount as' = 0 ∧
      run sourceConfig (reach sourceConfig (raceSchedule.take 2)) as' = some s' ∧
      s'.allFinished = true)) :=
  ⟨by decide, no_deadlock sourceConfig (fun _ => default) (raceSchedule.take 2)
    (reach sourceConfig (raceSchedule.take 2)) (by decide) (by decide)
    (run_eq_reach sourceConfig (raceSchedule.take 2) (by decide))⟩

end ProdCons
